import Mathlib

/-!
Verification of the knowledge-base RAG subsystem of the repository
(text chunker, blob storage key generation, knowledge-base repository,
ingestion worker) against its natural-language specification.

Modelling conventions:
* The tiktoken tokenizer is an external library; it is modelled as
  character-level encoding (one token per character, decode is string
  concatenation).  This preserves the properties the chunker relies on:
  decoding an encoding yields the original string, token counts add up
  under concatenation, and the two-character separator sequence encoding
  the blank line is whitespace.
* Database tables are lists of rows; SQL updates map over rows, SQL
  filters are list filters, ORDER BY is a stable sort.
* Timestamps are natural numbers supplied by the caller, UUID generation
  is an explicit argument, embedding vectors are lists of rationals, and
  the pgvector distance operator is an explicit distance-function
  argument.
* External collaborators of the worker (blob store, text extraction,
  embedding provider) are oracle functions returning a value or an
  exception message; repository writes that may fail are modelled through
  the environment as well.
-/

/-! ## Text chunker (src/lib/rag/text-chunker.ts) -/

/-- Whitespace predicate used by the model of JavaScript trim. -/
def isWs (c : Char) : Bool := c.isWhitespace

/-- Model of JavaScript string trim on a list of characters: drop leading
and trailing whitespace. -/
def trimChars (cs : List Char) : List Char :=
  ((cs.dropWhile isWs).reverse.dropWhile isWs).reverse

/-- Model of JavaScript trim at string level. -/
def trimString (s : String) : String :=
  String.mk (trimChars s.data)

/-- Token count of a string under the character-level tokenizer model
(source: estimateTokenCount, which returns the tiktoken encoding length). -/
def estimateTokenCount (s : String) : Nat :=
  s.data.length

/-- Paragraph splitter state machine modelling the JavaScript split on the
regular expression matching two or more consecutive newlines.  The
accumulator holds the current piece reversed; pending counts the
newlines seen since the last non-newline character. -/
def splitGo : List Char → List Char → Nat → List (List Char)
  | [], acc, pending =>
    if 2 ≤ pending then [acc.reverse, []]
    else [(List.replicate pending '\n' ++ acc).reverse]
  | c :: rest, acc, pending =>
    if c = '\n' then splitGo rest acc (pending + 1)
    else if 2 ≤ pending then acc.reverse :: splitGo rest [c] 0
    else splitGo rest (c :: (List.replicate pending '\n' ++ acc)) 0

/-- Split a text on runs of two or more newlines, as the chunker does. -/
def splitParas (cs : List Char) : List (List Char) :=
  splitGo cs [] 0

/-- Whether a character list contains two consecutive newline characters
(the paragraph separator the chunker splits on). -/
def hasDoubleNewline : List Char → Bool
  | [] => false
  | [_] => false
  | a :: b :: rest => (a = '\n' && b = '\n') || hasDoubleNewline (b :: rest)

/-- The paragraphs the chunker iterates over: split on blank-line runs,
trim each piece, keep the non-empty ones. -/
def paragraphsOf (text : String) : List (List Char) :=
  ((splitParas text.data).map trimChars).filter (fun p => !(p = []))

/-- Sliding-window emission for a paragraph whose token count exceeds
maxTokens: take windows of maxTokens tokens advancing by
max 1 (maxTokens - overlapTokens), emit each window trimmed when
non-empty, and stop after the first window shorter than maxTokens. -/
def slideGoF (tokens : List Char) (maxTokens overlapTokens : Nat) :
    Nat → Nat → List (List Char)
  | _, 0 => []
  | start, fuel + 1 =>
    if start < tokens.length then
      let slice := (tokens.drop start).take maxTokens
      let ct := trimChars slice
      let rest :=
        if slice.length < maxTokens then []
        else slideGoF tokens maxTokens overlapTokens
          (start + max 1 (maxTokens - overlapTokens)) fuel
      if ct = [] then rest else ct :: rest
    else []

/-- The sliding-window loop entered at a start position.  The start
strictly increases on every iteration, so the remaining token count
bounds the number of iterations and the fuel never runs out before the
loop condition fails. -/
def slideGo (tokens : List Char) (maxTokens overlapTokens : Nat) (start : Nat) :
    List (List Char) :=
  slideGoF tokens maxTokens overlapTokens start (tokens.length - start)

/-- Accumulator state of the chunker loop: the chunks emitted so far and
the token accumulator of the current chunk. -/
structure ChunkState where
  chunks : List (List Char)
  current : List Char

/-- Flushing the accumulator: when the accumulator is non-empty and its
decoded trimmed text is non-empty, append it as a chunk. -/
def flushChunk (st : ChunkState) : List (List Char) :=
  if st.current = [] then st.chunks
  else if trimChars st.current = [] then st.chunks
  else st.chunks ++ [trimChars st.current]

/-- One iteration of the chunker's paragraph loop. -/
def stepParagraph (maxTokens overlapTokens : Nat) (st : ChunkState)
    (para : List Char) : ChunkState :=
  if maxTokens < para.length then
    { chunks := flushChunk st ++ slideGo para maxTokens overlapTokens 0, current := [] }
  else
    let st' :=
      if maxTokens < st.current.length + para.length then
        { chunks := flushChunk st, current := [] }
      else st
    { chunks := st'.chunks, current := st'.current ++ para ++ ['\n', '\n'] }

/-- The chunks produced by the main algorithm of chunkText, before the
non-blank fallback is applied. -/
def chunkTextMain (text : String) (maxTokens overlapTokens : Nat) : List (List Char) :=
  flushChunk ((paragraphsOf text).foldl (stepParagraph maxTokens overlapTokens) ⟨[], []⟩)

/-- chunkText with explicit numeric options: main algorithm plus the
fallback emitting the trimmed original text when the main algorithm
yields no chunks but the input is non-blank. -/
def chunkTextCore (text : String) (maxTokens overlapTokens : Nat) : List String :=
  let main := chunkTextMain text maxTokens overlapTokens
  if main = [] then
    if trimChars text.data = [] then [] else [trimString text]
  else main.map String.mk

/-- Options object of chunkText; absent fields fall back to the defaults
700 and 100 on merge. -/
structure ChunkOptions where
  maxTokens : Option Nat
  overlapTokens : Option Nat
deriving DecidableEq

/-- chunkText as exported by the source: options merged over the default
values maxTokens 700 and overlapTokens 100. -/
def chunkText (text : String) (options : ChunkOptions) : List String :=
  chunkTextCore text (options.maxTokens.getD 700) (options.overlapTokens.getD 100)

/-! ## Document storage keys (src/lib/storage/object-storage.ts) -/

/-- Characters the storage-key sanitizer keeps: ASCII alphanumerics,
dot, underscore and hyphen. -/
def storageKeyAllowedChar (c : Char) : Bool :=
  c.isAlpha || c.isDigit || c = '.' || c = '_' || c = '-'

/-- Scanner modelling a global regex replace that collapses every maximal
run of characters failing the allowed predicate into the single output
character.  The boolean flag records whether the scanner is inside such
a run. -/
def collapseRunsBy (allowed : Char → Bool) (out : Char) : List Char → Bool → List Char
  | [], _ => []
  | c :: rest, inRun =>
    if allowed c then c :: collapseRunsBy allowed out rest false
    else if inRun then collapseRunsBy allowed out rest true
    else out :: collapseRunsBy allowed out rest true

/-- Model of the regex replace removing a leading and a trailing run of
hyphens. -/
def stripEdgeHyphens (cs : List Char) : List Char :=
  ((cs.dropWhile (fun c => c = '-')).reverse.dropWhile (fun c => c = '-')).reverse

/-- Model of the regex replace turning every occurrence of a hyphen
immediately followed by a dot into the dot alone. -/
def fixHyphenDot : List Char → List Char
  | '-' :: '.' :: rest => '.' :: fixHyphenDot rest
  | c :: rest => c :: fixHyphenDot rest
  | [] => []

/-- The full sanitizer of generateDocumentStorageKey: collapse runs of
disallowed characters to a hyphen, collapse hyphen runs, strip edge
hyphens, replace hyphen-dot by dot. -/
def sanitizeFileName (fileName : String) : String :=
  String.mk (fixHyphenDot (stripEdgeHyphens
    (collapseRunsBy (fun c => !(c = '-')) '-'
      (collapseRunsBy storageKeyAllowedChar '-' fileName.data false) false)))

/-- generateDocumentStorageKey from the source: deterministic key built
from the knowledge base id, the document id and the sanitized file name,
falling back to the literal name document when sanitization is empty. -/
def generateDocumentStorageKey (knowledgeBaseId documentId fileName : String) : String :=
  let sanitized := sanitizeFileName fileName
  let finalName := if sanitized.length ≠ 0 then sanitized else ("document" : String)
  ("knowledge-bases/" : String) ++ knowledgeBaseId ++ ("/" : String) ++ documentId
    ++ ("/" : String) ++ finalName

/-- Run collapsing written directly from the specification's words: every
maximal run of characters failing the allowed predicate becomes one
output character.  The fuel argument only makes the recursion
structural; the input length always suffices. -/
def specCollapseRunsF (allowed : Char → Bool) (out : Char) : Nat → List Char → List Char
  | 0, _ => []
  | _, [] => []
  | fuel + 1, c :: rest =>
    if allowed c then c :: specCollapseRunsF allowed out fuel rest
    else out :: specCollapseRunsF allowed out fuel (rest.dropWhile (fun d => !allowed d))

/-- Specification-side run collapsing. -/
def specCollapseRuns (allowed : Char → Bool) (out : Char) (cs : List Char) : List Char :=
  specCollapseRunsF allowed out cs.length cs

/-- The file-name sanitization exactly as claim C9 describes it: only the
collapsing of runs of disallowed characters into a single hyphen. -/
def sanitizeFileNameClaim (fileName : String) : String :=
  String.mk (specCollapseRuns storageKeyAllowedChar '-' fileName.data)

/-- The amended sanitization, assembled from the specification-side run
collapsing: collapse disallowed runs, collapse hyphen runs, strip a
leading and a trailing hyphen run, rewrite hyphen-dot to dot. -/
def sanitizeFileNameSpec (fileName : String) : String :=
  String.mk (fixHyphenDot (stripEdgeHyphens
    (specCollapseRuns (fun c => !(c = '-')) '-'
      (specCollapseRuns storageKeyAllowedChar '-' fileName.data))))

/-! ## Database model (src/lib/db/pg) -/

/-- Document lifecycle status constants from the repository source. -/
def DOCUMENT_STATUS_PENDING : String := "pending"

/-- Processing status constant. -/
def DOCUMENT_STATUS_PROCESSING : String := "processing"

/-- Failed status constant. -/
def DOCUMENT_STATUS_FAILED : String := "failed"

/-- Completed status constant. -/
def DOCUMENT_STATUS_COMPLETED : String := "completed"

/-- A row of the knowledge-base table. -/
structure KnowledgeBaseRow where
  id : String := ""
  name : String := ""
  description : Option String := none
  visibility : String := "private"
  ownerUserId : String := ""
  organizationId : Option String := none
  createdAt : Nat := 0
  updatedAt : Nat := 0
deriving DecidableEq

/-- A row of the knowledge-base-document table. -/
structure DocumentRow where
  id : String := ""
  knowledgeBaseId : String := ""
  uploadedByUserId : Option String := none
  organizationId : Option String := none
  fileName : String := ""
  fileSize : Nat := 0
  mimeType : String := ""
  storageKey : String := ""
  checksum : Option String := none
  status : String := "pending"
  error : Option String := none
  chunkCount : Nat := 0
  embeddingTokens : Nat := 0
  processedAt : Option Nat := none
  createdAt : Nat := 0
  updatedAt : Nat := 0
deriving DecidableEq

/-- A row of the knowledge-base-document-chunk table; the embedding is a
fixed-dimension vector modelled as a list of rationals. -/
structure ChunkRow where
  id : String := ""
  documentId : String := ""
  knowledgeBaseId : String := ""
  chunkIndex : Nat := 0
  content : String := ""
  embedding : List Rat := []
  createdAt : Nat := 0
deriving DecidableEq

/-- A row of the organization table (only the name is consumed here). -/
structure OrganizationRow where
  id : String := ""
  name : String := ""
deriving DecidableEq

/-- A row of the organization-member table. -/
structure OrganizationMemberRow where
  id : String := ""
  organizationId : String := ""
  userId : String := ""
deriving DecidableEq

/-- The database state the repository operates on. -/
structure Db where
  knowledgeBases : List KnowledgeBaseRow := []
  documents : List DocumentRow := []
  chunks : List ChunkRow := []
  organizations : List OrganizationRow := []
  members : List OrganizationMemberRow := []
deriving DecidableEq

/-- The mapped knowledge-base object returned to callers, including the
derived document counts. -/
structure KnowledgeBase where
  id : String
  name : String
  description : Option String
  visibility : String
  ownerUserId : String
  organizationId : Option String
  createdAt : Nat
  updatedAt : Nat
  documentCount : Nat
  pendingCount : Nat
  processingCount : Nat
deriving DecidableEq

/-- Listing entry: a knowledge base plus the organization name. -/
structure KnowledgeBaseSummary where
  id : String
  name : String
  description : Option String
  visibility : String
  ownerUserId : String
  organizationId : Option String
  createdAt : Nat
  updatedAt : Nat
  documentCount : Nat
  pendingCount : Nat
  processingCount : Nat
  organizationName : Option String
deriving DecidableEq

/-- Per-knowledge-base document counts as selected by mapDocumentCounts:
total count, pending counts documents in status pending or failed,
processing counts documents in status processing. -/
structure DocumentCountRow where
  knowledgeBaseId : String
  total : Nat
  pending : Nat
  processing : Nat
deriving DecidableEq

/-- Lookup into the map built by mapDocumentCounts: the grouped counts
row for a knowledge base, present exactly when the group-by produced a
group, i.e. when the knowledge base id is among the queried ids and it
has at least one document. -/
def mapDocumentCounts (db : Db) (knowledgeBaseIds : List String)
    (knowledgeBaseId : String) : Option DocumentCountRow :=
  let docs := db.documents.filter (fun d => decide (d.knowledgeBaseId = knowledgeBaseId))
  if knowledgeBaseId ∈ knowledgeBaseIds ∧ docs ≠ [] then
    some
      { knowledgeBaseId := knowledgeBaseId
        total := docs.length
        pending := (docs.filter (fun d =>
          decide (d.status = DOCUMENT_STATUS_PENDING ∨ d.status = DOCUMENT_STATUS_FAILED))).length
        processing := (docs.filter (fun d =>
          decide (d.status = DOCUMENT_STATUS_PROCESSING))).length }
  else none

/-- Mapping a knowledge-base row and its optional counts row to the
caller-facing object; absent counts become zero. -/
def toKnowledgeBase (row : KnowledgeBaseRow) (counts : Option DocumentCountRow) :
    KnowledgeBase :=
  { id := row.id
    name := row.name
    description := row.description
    visibility := row.visibility
    ownerUserId := row.ownerUserId
    organizationId := row.organizationId
    createdAt := row.createdAt
    updatedAt := row.updatedAt
    documentCount := (counts.map (fun c => c.total)).getD 0
    pendingCount := (counts.map (fun c => c.pending)).getD 0
    processingCount := (counts.map (fun c => c.processing)).getD 0 }

/-- Membership test modelling the left join of the organization-member
table on the knowledge base's organization id and the acting user. -/
def isMemberOf (db : Db) (organizationId : Option String) (userId : String) : Bool :=
  db.members.any (fun m =>
    decide (organizationId = some m.organizationId) && decide (m.userId = userId))

/-- Access record computed by loadKnowledgeBaseRow. -/
structure KnowledgeBaseAccess where
  knowledgeBase : KnowledgeBase
  canRead : Bool
  canWrite : Bool

/-- loadKnowledgeBaseRow: fetch the knowledge base joined with its
organization membership for the acting user, compute the capability
pair, and return nothing when the row is missing or unreadable. -/
def loadKnowledgeBaseRow (db : Db) (knowledgeBaseId userId : String) :
    Option KnowledgeBaseAccess :=
  match db.knowledgeBases.find? (fun kb => decide (kb.id = knowledgeBaseId)) with
  | none => none
  | some row =>
    let isMember := isMemberOf db row.organizationId userId
    let mapped := toKnowledgeBase row (mapDocumentCounts db [row.id] row.id)
    let isOwner : Bool := decide (row.ownerUserId = userId)
    let isPublic : Bool := decide (row.visibility = "public")
    let isReadonly : Bool := decide (row.visibility = "readonly")
    let hasOrganization : Bool := row.organizationId.isSome
    let canRead := isOwner || isPublic || isReadonly || (hasOrganization && isMember)
    let canWrite :=
      isOwner || (hasOrganization && isMember && !(decide (row.visibility = "readonly")))
    if canRead then some { knowledgeBase := mapped, canRead := canRead, canWrite := canWrite }
    else none

/-- Organization name resolved through the left join with the
organization table. -/
def organizationNameFor (db : Db) (organizationId : Option String) : Option String :=
  organizationId.bind (fun o =>
    (db.organizations.find? (fun org => decide (org.id = o))).map (fun org => org.name))

/-- The read-access filter of listAccessibleKnowledgeBases: owner, public
or readonly visibility, or organization membership witnessed by the
joined member row. -/
def accessibleFilter (db : Db) (userId : String) (kb : KnowledgeBaseRow) : Bool :=
  decide (kb.ownerUserId = userId) || decide (kb.visibility = "public")
    || decide (kb.visibility = "readonly") || isMemberOf db kb.organizationId userId

/-- listAccessibleKnowledgeBases: filter by the read predicate, order by
descending update time, attach counts and organization names. -/
def listAccessibleKnowledgeBases (db : Db) (userId : String) : List KnowledgeBaseSummary :=
  let rows := List.insertionSort (fun a b => b.updatedAt ≤ a.updatedAt)
    (db.knowledgeBases.filter (accessibleFilter db userId))
  let ids := rows.map (fun r => r.id)
  rows.map (fun row =>
    let kb := toKnowledgeBase row (mapDocumentCounts db ids row.id)
    { id := kb.id
      name := kb.name
      description := kb.description
      visibility := kb.visibility
      ownerUserId := kb.ownerUserId
      organizationId := kb.organizationId
      createdAt := kb.createdAt
      updatedAt := kb.updatedAt
      documentCount := kb.documentCount
      pendingCount := kb.pendingCount
      processingCount := kb.processingCount
      organizationName := organizationNameFor db row.organizationId })

/-! ## Repository operations (knowledge-base-repository.pg.ts) -/

/-- getKnowledgeBaseById: the readable knowledge base, or nothing. -/
def getKnowledgeBaseById (db : Db) (knowledgeBaseId userId : String) :
    Option KnowledgeBase :=
  (loadKnowledgeBaseRow db knowledgeBaseId userId).map (fun a => a.knowledgeBase)

/-- listKnowledgeBasesForUser delegates to listAccessibleKnowledgeBases. -/
def listKnowledgeBasesForUser (db : Db) (userId : String) : List KnowledgeBaseSummary :=
  listAccessibleKnowledgeBases db userId

/-- assertOrganizationMembership: error unless the user belongs to the
organization. -/
def assertOrganizationMembership (db : Db) (organizationId userId : String) :
    Except String Unit :=
  if db.members.any (fun m =>
      decide (m.organizationId = organizationId) && decide (m.userId = userId)) then
    Except.ok ()
  else Except.error ("Not authorized for organization")

/-- Payload of updateKnowledgeBase; the organization id distinguishes an
absent field (outer none) from an explicit null (some none). -/
structure UpdateKnowledgeBasePayload where
  name : Option String := none
  description : Option String := none
  visibility : Option String := none
  organizationId : Option (Option String) := none
deriving DecidableEq

/-- The updated knowledge-base row: present payload fields override the
current values, an absent organization id keeps the current one. -/
def updatedKnowledgeBaseRow (now : Nat) (knowledgeBase : KnowledgeBase)
    (payload : UpdateKnowledgeBasePayload) (kb : KnowledgeBaseRow) : KnowledgeBaseRow :=
  { kb with
    name := payload.name.getD knowledgeBase.name
    description := payload.description.or knowledgeBase.description
    visibility := payload.visibility.getD knowledgeBase.visibility
    organizationId :=
      match payload.organizationId with
      | some v => v
      | none => knowledgeBase.organizationId
    updatedAt := now }

/-- The membership re-check performed when the payload assigns a new
organization. -/
def checkOrganizationChange (db : Db) (knowledgeBase : KnowledgeBase) (userId : String)
    (payload : UpdateKnowledgeBasePayload) : Except String Unit :=
  match payload.organizationId with
  | some (some org) =>
    if decide (knowledgeBase.organizationId ≠ some org) then
      assertOrganizationMembership db org userId
    else Except.ok ()
  | _ => Except.ok ()

/-- updateKnowledgeBase: requires write capability, optionally re-checks
membership of a newly assigned organization, then updates the row and
returns it with fresh counts. -/
def updateKnowledgeBase (db : Db) (now : Nat) (knowledgeBaseId userId : String)
    (payload : UpdateKnowledgeBasePayload) : Except String (Option (KnowledgeBase × Db)) :=
  match loadKnowledgeBaseRow db knowledgeBaseId userId with
  | none => Except.ok none
  | some access =>
    if !access.canWrite then Except.ok none
    else
      match checkOrganizationChange db access.knowledgeBase userId payload with
      | Except.error e => Except.error e
      | Except.ok _ =>
        let updatedKbs := db.knowledgeBases.map (fun kb =>
          if decide (kb.id = knowledgeBaseId) then
            updatedKnowledgeBaseRow now access.knowledgeBase payload kb
          else kb)
        let db' := { db with knowledgeBases := updatedKbs }
        match updatedKbs.find? (fun kb => decide (kb.id = knowledgeBaseId)) with
        | none => Except.ok none
        | some updated =>
          let counts := mapDocumentCounts db' [knowledgeBaseId] knowledgeBaseId
          Except.ok (some (
            { id := updated.id
              name := updated.name
              description := updated.description
              visibility := updated.visibility
              ownerUserId := updated.ownerUserId
              organizationId := updated.organizationId
              createdAt := updated.createdAt
              updatedAt := updated.updatedAt
              documentCount := (counts.map (fun c => c.total)).getD
                access.knowledgeBase.documentCount
              pendingCount := (counts.map (fun c => c.pending)).getD
                access.knowledgeBase.pendingCount
              processingCount := (counts.map (fun c => c.processing)).getD
                access.knowledgeBase.processingCount }, db'))

/-- deleteKnowledgeBase: silently ignores an unreadable or missing
knowledge base, errors for a readable one not owned by the acting user,
and otherwise removes the row. -/
def deleteKnowledgeBase (db : Db) (knowledgeBaseId userId : String) : Except String Db :=
  match loadKnowledgeBaseRow db knowledgeBaseId userId with
  | none => Except.ok db
  | some access =>
    if decide (access.knowledgeBase.ownerUserId ≠ userId) then
      Except.error ("Only owners can delete knowledge bases")
    else
      Except.ok { db with knowledgeBases :=
        db.knowledgeBases.filter (fun kb => !(decide (kb.id = knowledgeBaseId))) }

/-- Payload of insertDocumentPlaceholder. -/
structure InsertDocumentPayload where
  knowledgeBaseId : String := ""
  fileName : String := ""
  fileSize : Nat := 0
  mimeType : String := ""
  storageKey : String := ""
  checksum : Option String := none
deriving DecidableEq

/-- insertDocumentPlaceholder: requires write capability on the target
knowledge base and inserts a pending document row. -/
def insertDocumentPlaceholder (db : Db) (now : Nat) (newId userId : String)
    (payload : InsertDocumentPayload) : Except String (DocumentRow × Db) :=
  match loadKnowledgeBaseRow db payload.knowledgeBaseId userId with
  | none => Except.error ("Not authorized to add documents")
  | some access =>
    if !access.canWrite then Except.error ("Not authorized to add documents")
    else
      let doc : DocumentRow :=
        { id := newId
          knowledgeBaseId := payload.knowledgeBaseId
          uploadedByUserId := some userId
          organizationId := access.knowledgeBase.organizationId
          fileName := payload.fileName
          fileSize := payload.fileSize
          mimeType := payload.mimeType
          storageKey := payload.storageKey
          checksum := payload.checksum
          status := DOCUMENT_STATUS_PENDING
          createdAt := now
          updatedAt := now }
      Except.ok (doc, { db with documents := db.documents ++ [doc] })

/-- updateDocument: rename a document after re-deriving write capability
on its knowledge base; nothing when the document is missing or the
capability is absent. -/
def updateDocument (db : Db) (now : Nat) (documentId userId fileName : String) :
    Option (DocumentRow × Db) :=
  match db.documents.find? (fun d => decide (d.id = documentId)) with
  | none => none
  | some docRow =>
    match loadKnowledgeBaseRow db docRow.knowledgeBaseId userId with
    | none => none
    | some access =>
      if !access.canWrite then none
      else
        let updatedDocs := db.documents.map (fun d =>
          if decide (d.id = documentId) then { d with fileName := fileName, updatedAt := now }
          else d)
        some ({ docRow with fileName := fileName, updatedAt := now },
          { db with documents := updatedDocs })

/-- deleteDocument: no-op for a missing document, error without write
capability, otherwise removes the document row. -/
def deleteDocument (db : Db) (documentId userId : String) : Except String Db :=
  match db.documents.find? (fun d => decide (d.id = documentId)) with
  | none => Except.ok db
  | some docRow =>
    match loadKnowledgeBaseRow db docRow.knowledgeBaseId userId with
    | none => Except.error ("Not authorized to delete document")
    | some access =>
      if !access.canWrite then Except.error ("Not authorized to delete document")
      else
        Except.ok { db with documents :=
          db.documents.filter (fun d => !(decide (d.id = documentId))) }

/-- The condition of the conditional claim update: the row has the
requested id and is still pending. -/
def isPendingDoc (documentId : String) (d : DocumentRow) : Bool :=
  decide (d.id = documentId) && decide (d.status = DOCUMENT_STATUS_PENDING)

/-- The effect of the claim update on a matching row. -/
def claimDoc (now : Nat) (d : DocumentRow) : DocumentRow :=
  { d with status := DOCUMENT_STATUS_PROCESSING, updatedAt := now }

/-- markDocumentProcessing: the single conditional update claiming a
pending document, returning the claimed row or nothing. -/
def markDocumentProcessing (db : Db) (now : Nat) (documentId : String) :
    Option DocumentRow × Db :=
  ((db.documents.filter (isPendingDoc documentId)).head?.map (claimDoc now),
    { db with documents := db.documents.map (fun d =>
        if isPendingDoc documentId d then claimDoc now d else d) })

/-- markDocumentCompleted: set completed status, final chunk count, token
count and processing timestamp. -/
def markDocumentCompleted (db : Db) (now : Nat) (documentId : String)
    (chunkCount embeddingTokens : Nat) : Db :=
  { db with documents := db.documents.map (fun d =>
      if decide (d.id = documentId) then
        { d with
          status := DOCUMENT_STATUS_COMPLETED
          chunkCount := chunkCount
          embeddingTokens := embeddingTokens
          processedAt := some now
          updatedAt := now }
      else d) }

/-- markDocumentFailed: set failed status and store the error message. -/
def markDocumentFailed (db : Db) (now : Nat) (documentId : String) (error : String) : Db :=
  { db with documents := db.documents.map (fun d =>
      if decide (d.id = documentId) then
        { d with status := DOCUMENT_STATUS_FAILED, error := some error, updatedAt := now }
      else d) }

/-- Chunk payload handed to upsertDocumentChunks. -/
structure ChunkInsert where
  chunkIndex : Nat
  content : String
  embedding : List Rat
deriving DecidableEq

/-- upsertDocumentChunks: batch insert of chunk rows (no-op on an empty
payload). -/
def upsertDocumentChunks (db : Db) (now : Nat) (documentId knowledgeBaseId : String)
    (chunks : List ChunkInsert) : Db :=
  if chunks = [] then db
  else
    { db with chunks := db.chunks ++ chunks.map (fun c =>
        { id := ""
          documentId := documentId
          knowledgeBaseId := knowledgeBaseId
          chunkIndex := c.chunkIndex
          content := c.content
          embedding := c.embedding
          createdAt := now }) }

/-- removeDocumentChunks: delete all chunk rows of a document. -/
def removeDocumentChunks (db : Db) (documentId : String) : Db :=
  { db with chunks := db.chunks.filter (fun c => !(decide (c.documentId = documentId))) }

/-- A row of the similarity search result. -/
structure KnowledgeBaseSearchResult where
  knowledgeBaseId : String
  documentId : String
  documentName : String
  content : String
  score : Rat
deriving DecidableEq

/-- Mapping of an eligible chunk-document pair to a search result; the
score is the distance-derived similarity floored at zero. -/
def mkSearchResult (distFn : List Rat → List Rat → Rat) (embedding : List Rat)
    (cd : ChunkRow × DocumentRow) : KnowledgeBaseSearchResult :=
  { knowledgeBaseId := cd.1.knowledgeBaseId
    documentId := cd.1.documentId
    documentName := cd.2.fileName
    content := cd.1.content
    score := max 0 (1 - distFn cd.1.embedding embedding) }

/-- searchKnowledgeBaseChunks: join chunks with their documents, keep
chunks of completed documents inside the authorized knowledge bases,
order by ascending distance and truncate to the limit.  The distance
operator is supplied by the storage engine and is therefore a
parameter. -/
def searchKnowledgeBaseChunks (distFn : List Rat → List Rat → Rat) (db : Db)
    (knowledgeBaseIds : List String) (embedding : List Rat) (limit : Nat) :
    List KnowledgeBaseSearchResult :=
  if knowledgeBaseIds = [] ∨ embedding = [] then []
  else
    let joined := db.chunks.flatMap (fun c =>
      (db.documents.filter (fun d => decide (d.id = c.documentId))).map (fun d => (c, d)))
    let eligible := joined.filter (fun cd =>
      decide (cd.1.knowledgeBaseId ∈ knowledgeBaseIds)
        && decide (cd.2.status = DOCUMENT_STATUS_COMPLETED))
    let ranked := List.insertionSort
      (fun a b => distFn a.1.embedding embedding ≤ distFn b.1.embedding embedding) eligible
    (ranked.take limit).map (mkSearchResult distFn embedding)

/-- searchKnowledgeBaseChunks with the default limit of five. -/
def searchKnowledgeBaseChunksDefault (distFn : List Rat → List Rat → Rat) (db : Db)
    (knowledgeBaseIds : List String) (embedding : List Rat) :
    List KnowledgeBaseSearchResult :=
  searchKnowledgeBaseChunks distFn db knowledgeBaseIds embedding 5

/-! ## Ingestion worker (src/workers/rag-worker.ts) -/

/-- External collaborators of the worker, modelled as oracles: the blob
store, the text extractor and the embedding provider either produce a
value or fail with an exception message; a chunk-persistence failure is
modelled by an optional exception message as well. -/
structure WorkerEnv where
  blob : String → Except String (List Nat)
  extract : List Nat → String → String → Except String String
  embed : List String → Except String (List (List Rat) × Nat)
  upsertError : Option String := none

/-- Observable repository writes of one processDocument run, in order. -/
inductive WorkerEvent where
  | removeChunks (documentId : String)
  | upsertChunks (documentId : String) (count : Nat)
  | completed (documentId : String)
  | failed (documentId : String) (message : String)
deriving DecidableEq

/-- processDocument: claim the document, fetch and extract its bytes,
chunk and embed the text, replace the persisted chunks and finalize the
status; any failure inside the boundary marks the document failed with
the exception's message.  Returns the final database state and the
ordered repository write events. -/
def processDocument (env : WorkerEnv) (maxChunks : Nat) (now : Nat) (db : Db)
    (documentId : String) : Db × List WorkerEvent :=
  match markDocumentProcessing db now documentId with
  | (none, db1) => (db1, [])
  | (some claimed, db1) =>
    match env.blob claimed.storageKey with
    | Except.error e =>
      (markDocumentFailed db1 now documentId e, [WorkerEvent.failed documentId e])
    | Except.ok buffer =>
      if buffer.length = 0 then
        (markDocumentFailed db1 now documentId ("Document is empty"),
          [WorkerEvent.failed documentId ("Document is empty")])
      else
        match env.extract buffer claimed.mimeType claimed.fileName with
        | Except.error e =>
          (markDocumentFailed db1 now documentId e, [WorkerEvent.failed documentId e])
        | Except.ok text =>
          if text = "" then
            (markDocumentFailed db1 now documentId ("Unable to extract text from document"),
              [WorkerEvent.failed documentId ("Unable to extract text from document")])
          else
            let chunks := (chunkText text ⟨none, none⟩).take maxChunks
            let db2 := removeDocumentChunks db1 claimed.id
            if chunks = [] then
              (markDocumentCompleted db2 now claimed.id 0 0,
                [WorkerEvent.removeChunks claimed.id, WorkerEvent.completed claimed.id])
            else
              match env.embed chunks with
              | Except.error e =>
                (markDocumentFailed db2 now documentId e,
                  [WorkerEvent.removeChunks claimed.id, WorkerEvent.failed documentId e])
              | Except.ok (embeddings, tokens) =>
                match env.upsertError with
                | some e =>
                  (markDocumentFailed db2 now documentId e,
                    [WorkerEvent.removeChunks claimed.id, WorkerEvent.failed documentId e])
                | none =>
                  let payload := embeddings.enum.map (fun ie =>
                    { chunkIndex := ie.1
                      content := chunks.getD ie.1 ("")
                      embedding := ie.2 : ChunkInsert })
                  let db3 := upsertDocumentChunks db2 now claimed.id claimed.knowledgeBaseId payload
                  let db4 := markDocumentCompleted db3 now claimed.id chunks.length tokens
                  (db4,
                    [WorkerEvent.removeChunks claimed.id,
                      WorkerEvent.upsertChunks claimed.id payload.length,
                      WorkerEvent.completed claimed.id])

/-! ## Lemmas about trimming -/

/-- Trimming never lengthens a character list. -/
theorem trimChars_length_le (cs : List Char) : (trimChars cs).length ≤ cs.length := by
  have h1 : ((cs.dropWhile isWs).reverse.dropWhile isWs).length
      ≤ (cs.dropWhile isWs).reverse.length :=
    (List.dropWhile_sublist isWs).length_le
  have h2 : (cs.dropWhile isWs).length ≤ cs.length :=
    (List.dropWhile_sublist isWs).length_le
  simp only [trimChars, List.length_reverse] at *
  omega

/-- The newline character is whitespace. -/
theorem isWs_newline : isWs '\n' = true := by decide

/-- Appending the paragraph separator does not change the trimmed text. -/
theorem trimChars_append_sep (cs : List Char) :
    trimChars (cs ++ ['\n', '\n']) = trimChars cs := by
  unfold trimChars
  rcases h : cs.dropWhile isWs with _ | ⟨a, tl⟩
  · rw [List.dropWhile_append, h]
    simp [isWs_newline]
  · rw [List.dropWhile_append, h]
    simp only [List.isEmpty_cons]
    simp only [Bool.false_eq_true, if_false]
    simp [List.dropWhile_cons, isWs_newline]

/-- A list whose every element is whitespace trims to the empty list. -/
theorem trimChars_eq_nil_of_all_ws (cs : List Char) (h : ∀ c ∈ cs, isWs c = true) :
    trimChars cs = [] := by
  unfold trimChars
  have h1 : cs.dropWhile isWs = [] := List.dropWhile_eq_nil_iff.mpr h
  simp [h1]

/-- A list containing a non-whitespace character has a non-empty trim. -/
theorem trimChars_ne_nil_of_mem (cs : List Char) (c : Char) (hc : c ∈ cs)
    (hw : isWs c = false) : trimChars cs ≠ [] := by
  unfold trimChars
  intro h
  rcases List.reverse_eq_nil_iff.mp h with h'
  have hcd : ∀ x ∈ (cs.dropWhile isWs).reverse, isWs x = true := by
    intro x hx
    exact List.dropWhile_eq_nil_iff.mp h' x hx
  have h2 : cs.dropWhile isWs ≠ [] := by
    intro hnil
    have := List.dropWhile_eq_nil_iff.mp hnil c hc
    rw [hw] at this
    exact Bool.false_ne_true this
  have hhead : isWs ((cs.dropWhile isWs).head h2) = false :=
    List.head_dropWhile_not isWs cs h2
  have hmem : (cs.dropWhile isWs).head h2 ∈ (cs.dropWhile isWs).reverse := by
    exact List.mem_reverse.mpr (List.head_mem h2)
  have := hcd _ hmem
  rw [hhead] at this
  exact Bool.false_ne_true this

/-- The trim of a list is a prefix of the list with leading whitespace
removed. -/
theorem trimChars_eq_take (cs : List Char) :
    ∃ t, trimChars cs ++ t = cs.dropWhile isWs := by
  have hsuf : (cs.dropWhile isWs).reverse.dropWhile isWs <:+ (cs.dropWhile isWs).reverse :=
    List.dropWhile_suffix isWs
  rcases hsuf with ⟨t, ht⟩
  refine ⟨t.reverse, ?_⟩
  have := congrArg List.reverse ht
  simp only [List.reverse_append, List.reverse_reverse] at this
  simpa [trimChars] using this

/-- Transport of a non-whitespace head along a list equality. -/
theorem head_not_ws_congr (l m : List Char) (hl : l ≠ []) (hm : m ≠ []) (he : l = m)
    (hw : isWs (m.head hm) = false) : isWs (l.head hl) = false := by
  subst he
  exact hw

/-- Transport of a non-whitespace head to a non-empty leading part of an
append. -/
theorem head_not_ws_of_append (l t m : List Char) (hl : l ≠ []) (hm : m ≠ [])
    (he : l ++ t = m) (hw : isWs (m.head hm) = false) : isWs (l.head hl) = false := by
  rcases l with _ | ⟨a, tl⟩
  · exact absurd rfl hl
  · have he' : m = a :: (tl ++ t) := by rw [← he]; simp
    subst he'
    simpa using hw

/-- A non-empty trimmed list starts with a non-whitespace character. -/
theorem trimChars_head_not_ws (cs : List Char) (h : trimChars cs ≠ []) :
    isWs ((trimChars cs).head h) = false := by
  rcases trimChars_eq_take cs with ⟨t, ht⟩
  have hd : cs.dropWhile isWs ≠ [] := by
    intro hnil
    rw [hnil] at ht
    exact h (List.append_eq_nil.mp ht).1
  exact head_not_ws_of_append _ t _ h hd ht (List.head_dropWhile_not isWs cs hd)

/-- A non-empty trimmed list ends with a non-whitespace character, hence
its reverse has a non-whitespace head. -/
theorem trimChars_reverse_head_not_ws (cs : List Char) (h : (trimChars cs).reverse ≠ []) :
    isWs ((trimChars cs).reverse.head h) = false := by
  have heq : (trimChars cs).reverse = (cs.dropWhile isWs).reverse.dropWhile isWs := by
    simp [trimChars]
  have hd : (cs.dropWhile isWs).reverse.dropWhile isWs ≠ [] := by
    intro hnil
    apply h
    rw [heq, hnil]
  exact head_not_ws_congr _ _ h hd heq
    (List.head_dropWhile_not isWs (cs.dropWhile isWs).reverse hd)

/-- Lists starting with a non-whitespace character are unchanged by the
leading-whitespace drop. -/
theorem dropWhile_eq_self_of_head (cs : List Char) (h : cs ≠ [])
    (hw : isWs (cs.head h) = false) : cs.dropWhile isWs = cs := by
  rcases cs with _ | ⟨a, tl⟩
  · simp
  · simp only [List.head_cons] at hw
    simp [List.dropWhile_cons, hw]

/-- Trimming is idempotent. -/
theorem trimChars_idem (cs : List Char) : trimChars (trimChars cs) = trimChars cs := by
  rcases he : trimChars cs with _ | ⟨a, tl⟩
  · simp [trimChars]
  · have h1 : trimChars cs ≠ [] := by rw [he]; simp
    have hh := trimChars_head_not_ws cs h1
    have hd1 : (trimChars cs).dropWhile isWs = trimChars cs :=
      dropWhile_eq_self_of_head _ h1 hh
    have h2 : (trimChars cs).reverse ≠ [] := by
      rw [he]; simp
    have hh2 := trimChars_reverse_head_not_ws cs h2
    have hd2 : (trimChars cs).reverse.dropWhile isWs = (trimChars cs).reverse :=
      dropWhile_eq_self_of_head _ h2 hh2
    rw [← he]
    calc trimChars (trimChars cs)
        = (((trimChars cs).dropWhile isWs).reverse.dropWhile isWs).reverse := rfl
      _ = ((trimChars cs).reverse.dropWhile isWs).reverse := by rw [hd1]
      _ = ((trimChars cs).reverse).reverse := by rw [hd2]
      _ = trimChars cs := by simp

/-! ## Lemmas about paragraph splitting -/

/-- Every character of the input or of the accumulator that is not a
newline ends up inside one of the produced pieces. -/
theorem splitGo_mem (cs : List Char) : ∀ (acc : List Char) (pending : Nat) (c : Char),
    ((c ∈ cs ∧ c ≠ '\n') ∨ c ∈ acc) → ∃ p ∈ splitGo cs acc pending, c ∈ p := by
  induction cs with
  | nil =>
    intro acc pending c hc
    rcases hc with ⟨hc, _⟩ | hc
    · simp at hc
    · by_cases hp : 2 ≤ pending
      · exact ⟨acc.reverse, by simp [splitParas, splitGo, hp], List.mem_reverse.mpr hc⟩
      · refine ⟨(List.replicate pending '\n' ++ acc).reverse, by simp [splitGo, hp], ?_⟩
        simp only [List.mem_reverse, List.mem_append]
        exact Or.inr hc
  | cons d rest ih =>
    intro acc pending c hc
    by_cases hd : d = '\n'
    · have : splitGo (d :: rest) acc pending = splitGo rest acc (pending + 1) := by
        simp [splitGo, hd]
      rw [this]
      apply ih
      rcases hc with ⟨hc, hne⟩ | hc
      · rcases List.mem_cons.mp hc with h | h
        · exact absurd (h.trans hd) hne
        · exact Or.inl ⟨h, hne⟩
      · exact Or.inr hc
    · by_cases hp : 2 ≤ pending
      · have : splitGo (d :: rest) acc pending = acc.reverse :: splitGo rest [d] 0 := by
          simp [splitGo, hd, hp]
        rw [this]
        rcases hc with ⟨hc, hne⟩ | hc
        · rcases List.mem_cons.mp hc with h | h
          · subst h
            rcases ih [c] 0 c (Or.inr (by simp)) with ⟨p, hp1, hp2⟩
            exact ⟨p, List.mem_cons_of_mem _ hp1, hp2⟩
          · rcases ih [d] 0 c (Or.inl ⟨h, hne⟩) with ⟨p, hp1, hp2⟩
            exact ⟨p, List.mem_cons_of_mem _ hp1, hp2⟩
        · exact ⟨acc.reverse, List.mem_cons_self _ _, List.mem_reverse.mpr hc⟩
      · have : splitGo (d :: rest) acc pending
            = splitGo rest (d :: (List.replicate pending '\n' ++ acc)) 0 := by
          simp [splitGo, hd, hp]
        rw [this]
        apply ih
        rcases hc with ⟨hc, hne⟩ | hc
        · rcases List.mem_cons.mp hc with h | h
          · exact Or.inr (by simp [h])
          · exact Or.inl ⟨h, hne⟩
        · exact Or.inr (by simp [hc])

/-- The blank-line test only looks at adjacent pairs, so it is monotone
along the tail. -/
theorem hasDoubleNewline_cons (d : Char) (rest : List Char)
    (h : hasDoubleNewline (d :: rest) = false) : hasDoubleNewline rest = false := by
  rcases rest with _ | ⟨e, tl⟩
  · rfl
  · simp only [hasDoubleNewline, Bool.or_eq_false_iff] at h
    exact h.2

/-- On an input without a blank-line separator the splitter returns the
single piece consisting of the pending newlines and the input. -/
theorem splitGo_no_double (cs : List Char) :
    ∀ (acc : List Char) (pending : Nat),
    pending ≤ 1 → hasDoubleNewline (List.replicate pending '\n' ++ cs) = false →
    splitGo cs acc pending = [acc.reverse ++ List.replicate pending '\n' ++ cs] := by
  induction cs with
  | nil =>
    intro acc pending hp _
    have h2 : ¬ 2 ≤ pending := by omega
    simp [splitGo, h2]
  | cons d rest ih =>
    intro acc pending hp hdn
    by_cases hd : d = '\n'
    · subst hd
      have hpend : pending = 0 := by
        rcases Nat.lt_or_ge pending 1 with h | h
        · omega
        · exfalso
          have hpe : pending = 1 := by omega
          rw [hpe] at hdn
          simp [hasDoubleNewline] at hdn
      subst hpend
      have : splitGo ('\n' :: rest) acc 0 = splitGo rest acc 1 := by
        simp [splitGo]
      rw [this, ih acc 1 (by omega) (by simpa using hdn)]
      simp
    · have hstep : splitGo (d :: rest) acc pending
          = splitGo rest (d :: (List.replicate pending '\n' ++ acc)) 0 := by
        have h2 : ¬ 2 ≤ pending := by omega
        simp [splitGo, hd, h2]
      have hrest0 : hasDoubleNewline (d :: rest) = false := by
        rcases Nat.le_one_iff_eq_zero_or_eq_one.mp hp with h0 | h1
        · subst h0
          simpa using hdn
        · subst h1
          exact hasDoubleNewline_cons '\n' (d :: rest) (by simpa using hdn)
      have hrest : hasDoubleNewline rest = false := hasDoubleNewline_cons d rest hrest0
      rw [hstep, ih _ 0 (by omega) (by simpa using hrest)]
      simp

/-! ## Lemmas about the sliding window and the accumulator -/

/-- Every window chunk is non-empty and at most maxTokens tokens long. -/
theorem slideGoF_sound (tokens : List Char) (maxTokens overlapTokens : Nat) :
    ∀ fuel start, ∀ c ∈ slideGoF tokens maxTokens overlapTokens start fuel,
      c.length ≤ maxTokens ∧ c ≠ [] := by
  intro fuel
  induction fuel with
  | zero =>
    intro start c hc
    simp [slideGoF] at hc
  | succ n ih =>
    intro start c hc
    rw [slideGoF] at hc
    by_cases h : start < tokens.length
    · rw [if_pos h] at hc
      simp only at hc
      have hrec : ∀ c ∈ (if ((tokens.drop start).take maxTokens).length < maxTokens
          then ([] : List (List Char))
          else slideGoF tokens maxTokens overlapTokens
            (start + max 1 (maxTokens - overlapTokens)) n), c.length ≤ maxTokens ∧ c ≠ [] := by
        intro c' hc'
        by_cases hshort : ((tokens.drop start).take maxTokens).length < maxTokens
        · rw [if_pos hshort] at hc'
          simp at hc'
        · rw [if_neg hshort] at hc'
          exact ih (start + max 1 (maxTokens - overlapTokens)) c' hc'
      by_cases hct : trimChars ((tokens.drop start).take maxTokens) = []
      · rw [if_pos hct] at hc
        exact hrec c hc
      · rw [if_neg hct] at hc
        rcases List.mem_cons.mp hc with hceq | hcm
        · subst hceq
          refine ⟨?_, hct⟩
          have h1 : (trimChars ((tokens.drop start).take maxTokens)).length
              ≤ ((tokens.drop start).take maxTokens).length := trimChars_length_le _
          have h2 : ((tokens.drop start).take maxTokens).length ≤ maxTokens := by
            rw [List.length_take]
            exact min_le_left _ _
          omega
        · exact hrec c hcm
    · rw [if_neg h] at hc
      simp at hc

/-- Soundness for the loop entered at a start position. -/
theorem slideGo_sound (tokens : List Char) (maxTokens overlapTokens start : Nat) :
    ∀ c ∈ slideGo tokens maxTokens overlapTokens start, c.length ≤ maxTokens ∧ c ≠ [] :=
  slideGoF_sound tokens maxTokens overlapTokens (tokens.length - start) start

/-- With a positive window size the sliding window over a non-empty
paragraph with a non-whitespace head emits at least one chunk. -/
theorem slideGo_ne_nil (a : Char) (tl : List Char) (maxTokens overlapTokens : Nat)
    (hmax : 1 ≤ maxTokens) (hw : isWs a = false) :
    slideGo (a :: tl) maxTokens overlapTokens 0 ≠ [] := by
  show slideGoF (a :: tl) maxTokens overlapTokens 0 ((a :: tl).length - 0) ≠ []
  have hlen : (a :: tl).length - 0 = tl.length + 1 := by simp
  rw [hlen, slideGoF, if_pos (by simp : 0 < (a :: tl).length)]
  simp only [List.drop_zero]
  have htake : a ∈ (a :: tl).take maxTokens := by
    rcases maxTokens with _ | m
    · omega
    · simp [List.take_cons]
  have hct : trimChars ((a :: tl).take maxTokens) ≠ [] :=
    trimChars_ne_nil_of_mem _ a htake hw
  rw [if_neg hct]
  simp

/-- Case analysis of membership in a flushed chunk list. -/
theorem mem_flushChunk (st : ChunkState) (c : List Char) (hc : c ∈ flushChunk st) :
    c ∈ st.chunks ∨ (c = trimChars st.current ∧ trimChars st.current ≠ []) := by
  unfold flushChunk at hc
  by_cases h1 : st.current = []
  · rw [if_pos h1] at hc
    exact Or.inl hc
  · rw [if_neg h1] at hc
    by_cases h2 : trimChars st.current = []
    · rw [if_pos h2] at hc
      exact Or.inl hc
    · rw [if_neg h2] at hc
      rcases List.mem_append.mp hc with h | h
      · exact Or.inl h
      · exact Or.inr ⟨List.mem_singleton.mp h, h2⟩

/-- Flushing preserves a non-empty chunk list. -/
theorem flushChunk_ne_nil_of_chunks (st : ChunkState) (h : st.chunks ≠ []) :
    flushChunk st ≠ [] := by
  unfold flushChunk
  by_cases h1 : st.current = []
  · rw [if_pos h1]; exact h
  · rw [if_neg h1]
    by_cases h2 : trimChars st.current = []
    · rw [if_pos h2]; exact h
    · rw [if_neg h2]
      simp
  
/-- Flushing a non-blank accumulator yields a non-empty chunk list. -/
theorem flushChunk_ne_nil_of_current (st : ChunkState) (h : trimChars st.current ≠ []) :
    flushChunk st ≠ [] := by
  unfold flushChunk
  have h1 : st.current ≠ [] := by
    intro hnil
    apply h
    rw [hnil]
    rfl
  rw [if_neg h1, if_neg h]
  simp

/-- The combined boundedness and non-emptiness invariant of the chunker
loop state. -/
def ChunkInv (maxTokens : Nat) (st : ChunkState) : Prop :=
  (∀ c ∈ st.chunks, c.length ≤ maxTokens ∧ c ≠ []) ∧
    (trimChars st.current).length ≤ maxTokens

/-- One paragraph step preserves the chunker invariant. -/
theorem stepParagraph_inv (maxTokens overlapTokens : Nat) (st : ChunkState)
    (para : List Char) (hP : ChunkInv maxTokens st) :
    ChunkInv maxTokens (stepParagraph maxTokens overlapTokens st para) := by
  rcases hP with ⟨hchunks, hcur⟩
  unfold stepParagraph
  by_cases h1 : maxTokens < para.length
  · rw [if_pos h1]
    refine ⟨?_, by simpa [trimChars] using Nat.zero_le _⟩
    intro c hc
    rcases List.mem_append.mp hc with h | h
    · rcases mem_flushChunk st c h with h' | ⟨h', hne⟩
      · exact hchunks c h'
      · exact ⟨h' ▸ hcur, h' ▸ hne⟩
    · exact slideGo_sound para maxTokens overlapTokens 0 c h
  · rw [if_neg h1]
    by_cases h2 : maxTokens < st.current.length + para.length
    · rw [if_pos h2]
      constructor
      · intro c hc
        rcases mem_flushChunk st c hc with h' | ⟨h', hne⟩
        · exact hchunks c h'
        · exact ⟨h' ▸ hcur, h' ▸ hne⟩
      · simp only [List.nil_append]
        rw [trimChars_append_sep]
        have := trimChars_length_le para
        omega
    · rw [if_neg h2]
      show ChunkInv maxTokens { chunks := st.chunks, current := st.current ++ para ++ ['\n', '\n'] }
      refine ⟨hchunks, ?_⟩
      show (trimChars (st.current ++ para ++ ['\n', '\n'])).length ≤ maxTokens
      rw [trimChars_append_sep (st.current ++ para)]
      have h3 := trimChars_length_le (st.current ++ para)
      rw [List.length_append] at h3
      omega

/-- Fold preservation of an arbitrary state invariant. -/
theorem foldl_preserves {α β : Type} (f : β → α → β) (P : β → Prop)
    (hf : ∀ st a, P st → P (f st a)) :
    ∀ (l : List α) (st : β), P st → P (l.foldl f st) := by
  intro l
  induction l with
  | nil => intro st h; exact h
  | cons a tl ih => intro st h; exact ih (f st a) (hf st a h)

/-- Every chunk of the main algorithm is non-empty and within the token
bound. -/
theorem chunkTextMain_sound (text : String) (maxTokens overlapTokens : Nat) :
    ∀ c ∈ chunkTextMain text maxTokens overlapTokens, c.length ≤ maxTokens ∧ c ≠ [] := by
  intro c hc
  have hinv : ChunkInv maxTokens
      ((paragraphsOf text).foldl (stepParagraph maxTokens overlapTokens) ⟨[], []⟩) := by
    apply foldl_preserves (stepParagraph maxTokens overlapTokens) (ChunkInv maxTokens)
      (fun st a h => stepParagraph_inv maxTokens overlapTokens st a h)
    exact ⟨by simp, by simpa [trimChars] using Nat.zero_le _⟩
  unfold chunkTextMain at hc
  rcases mem_flushChunk _ c hc with h | ⟨h, hne⟩
  · exact hinv.1 c h
  · exact ⟨h ▸ hinv.2, h ▸ hne⟩

/-- Shape of a paragraph produced by paragraphsOf: non-empty with a
non-whitespace head. -/
theorem paragraphsOf_shape (text : String) (p : List Char) (hp : p ∈ paragraphsOf text) :
    ∃ a tl, p = a :: tl ∧ isWs a = false := by
  unfold paragraphsOf at hp
  rcases List.mem_filter.mp hp with ⟨hmem, hval⟩
  rcases List.mem_map.mp hmem with ⟨piece, _, hpe⟩
  have hpne : p ≠ [] := by
    intro h
    rw [h] at hval
    simp at hval
  rcases hq : p with _ | ⟨a, tl⟩
  · exact absurd hq hpne
  · refine ⟨a, tl, rfl, ?_⟩
    have h1 : trimChars piece ≠ [] := by
      rw [hpe]
      exact hpne
    have := trimChars_head_not_ws piece h1
    have heads : (trimChars piece).head h1 = a := by
      have hpe' : trimChars piece = a :: tl := by rw [hpe, hq]
      simp [hpe']
    rw [heads] at this
    exact this

/-- After processing any good paragraph the state has either an emitted
chunk or a non-blank accumulator. -/
theorem stepParagraph_establishes (maxTokens overlapTokens : Nat) (st : ChunkState)
    (a : Char) (tl : List Char) (hmax : 1 ≤ maxTokens) (hw : isWs a = false) :
    (stepParagraph maxTokens overlapTokens st (a :: tl)).chunks ≠ [] ∨
      ∃ c ∈ (stepParagraph maxTokens overlapTokens st (a :: tl)).current, isWs c = false := by
  unfold stepParagraph
  by_cases h1 : maxTokens < (a :: tl).length
  · rw [if_pos h1]
    left
    intro hnil
    rcases List.append_eq_nil.mp hnil with ⟨_, h⟩
    exact slideGo_ne_nil a tl maxTokens overlapTokens hmax hw h
  · rw [if_neg h1]
    right
    by_cases h2 : maxTokens < st.current.length + (a :: tl).length
    · rw [if_pos h2]
      exact ⟨a, by simp, hw⟩
    · rw [if_neg h2]
      refine ⟨a, ?_, hw⟩
      show a ∈ st.current ++ (a :: tl) ++ ['\n', '\n']
      simp

/-- Folding the step over a non-empty list of good paragraphs leaves the
state with an emitted chunk or a non-blank accumulator. -/
theorem foldl_establishes (maxTokens overlapTokens : Nat) (hmax : 1 ≤ maxTokens) :
    ∀ (ps : List (List Char)), ps ≠ [] →
    (∀ p ∈ ps, ∃ a tl, p = a :: tl ∧ isWs a = false) →
    ∀ st : ChunkState,
    (ps.foldl (stepParagraph maxTokens overlapTokens) st).chunks ≠ [] ∨
      ∃ c ∈ (ps.foldl (stepParagraph maxTokens overlapTokens) st).current, isWs c = false := by
  intro ps
  induction ps with
  | nil => intro h; exact absurd rfl h
  | cons q qs ih =>
    intro _ hgood st
    rcases hgood q (List.mem_cons_self _ _) with ⟨a, tl, hq, hw⟩
    by_cases hqs : qs = []
    · subst hqs
      subst hq
      exact stepParagraph_establishes maxTokens overlapTokens st a tl hmax hw
    · exact ih hqs (fun p hp => hgood p (List.mem_cons_of_mem _ hp)) _

/-- A non-blank input yields a non-blank paragraph list. -/
theorem paragraphsOf_ne_nil (text : String) (hnb : trimChars text.data ≠ []) :
    paragraphsOf text ≠ [] := by
  have hex : ∃ c ∈ text.data, isWs c = false := by
    by_contra hall
    push_neg at hall
    apply hnb
    apply trimChars_eq_nil_of_all_ws
    intro c hc
    have := hall c hc
    revert this
    rcases isWs c with _ | _ <;> simp
  rcases hex with ⟨c, hc, hw⟩
  have hcn : c ≠ '\n' := by
    intro h
    rw [h, isWs_newline] at hw
    exact Bool.true_eq_false.mp hw
  rcases splitGo_mem text.data [] 0 c (Or.inl ⟨hc, hcn⟩) with ⟨piece, hp1, hp2⟩
  have htp : trimChars piece ∈ paragraphsOf text := by
    unfold paragraphsOf
    apply List.mem_filter.mpr
    refine ⟨List.mem_map.mpr ⟨piece, hp1, rfl⟩, ?_⟩
    simp [trimChars_ne_nil_of_mem piece c hp2 hw]
  intro h
  rw [h] at htp
  simp at htp

/-- With a positive token bound and a non-blank input the main algorithm
emits at least one chunk. -/
theorem chunkTextMain_ne_nil (text : String) (maxTokens overlapTokens : Nat)
    (hmax : 1 ≤ maxTokens) (hnb : trimChars text.data ≠ []) :
    chunkTextMain text maxTokens overlapTokens ≠ [] := by
  unfold chunkTextMain
  rcases foldl_establishes maxTokens overlapTokens hmax (paragraphsOf text)
      (paragraphsOf_ne_nil text hnb)
      (fun p hp => paragraphsOf_shape text p hp) ⟨[], []⟩ with h | ⟨c, hc, hw⟩
  · exact flushChunk_ne_nil_of_chunks _ h
  · exact flushChunk_ne_nil_of_current _ (trimChars_ne_nil_of_mem _ c hc hw)

/-- Token bound for chunkTextCore under a positive maxTokens. -/
theorem chunkTextCore_token_bound (text : String) (maxTokens overlapTokens : Nat)
    (hmax : 1 ≤ maxTokens) :
    ∀ s ∈ chunkTextCore text maxTokens overlapTokens, estimateTokenCount s ≤ maxTokens := by
  intro s hs
  unfold chunkTextCore at hs
  by_cases hmain : chunkTextMain text maxTokens overlapTokens = []
  · rw [if_pos hmain] at hs
    by_cases hnb : trimChars text.data = []
    · rw [if_pos hnb] at hs
      simp at hs
    · exact absurd hmain (chunkTextMain_ne_nil text maxTokens overlapTokens hmax hnb)
  · rw [if_neg hmain] at hs
    rcases List.mem_map.mp hs with ⟨c, hc, rfl⟩
    have := (chunkTextMain_sound text maxTokens overlapTokens c hc).1
    simpa [estimateTokenCount] using this

/-- Claim C6, amended: for every input text and every options pair whose
effective maxTokens is positive (in particular the defaults 700 and
100), every chunk emitted by chunkText has a token count of at most
maxTokens.  With maxTokens zero the non-blank fallback chunk can exceed
the bound, see the counterexample. -/
theorem chunkText_token_bound (text : String) (options : ChunkOptions)
    (hmax : 1 ≤ options.maxTokens.getD 700) :
    ∀ s ∈ chunkText text options, estimateTokenCount s ≤ options.maxTokens.getD 700 :=
  chunkTextCore_token_bound text (options.maxTokens.getD 700)
    (options.overlapTokens.getD 100) hmax

/-- Witness instantiating the chunk token bound at maxTokens three and
overlap one on a concrete string. -/
theorem chunkText_token_bound_witness :
    1 ≤ ((⟨some 3, some 1⟩ : ChunkOptions).maxTokens.getD 700)
    ∧ ∀ s ∈ chunkText ("abcdefgh") ⟨some 3, some 1⟩,
        estimateTokenCount s ≤ ((⟨some 3, some 1⟩ : ChunkOptions).maxTokens.getD 700) :=
  ⟨by decide, chunkText_token_bound ("abcdefgh") ⟨some 3, some 1⟩ (by decide)⟩

/-- Counterexample to claim C6 as stated: with the options pair
maxTokens zero and overlapTokens zero the fallback chunk of a non-blank
input has token count two, exceeding maxTokens. -/
theorem chunkText_token_bound_counterexample :
    ("ab" : String) ∈ chunkText ("ab") ⟨some 0, some 0⟩
    ∧ ¬ (estimateTokenCount ("ab") ≤ (some 0).getD 700) := by
  decide

/-- chunkTextCore on a short non-blank input without blank-line
separators returns exactly the trimmed input. -/
theorem chunkTextCore_single (text : String) (maxTokens overlapTokens : Nat)
    (hnb : trimChars text.data ≠ [])
    (hdn : hasDoubleNewline text.data = false)
    (hlen : text.data.length < maxTokens) :
    chunkTextCore text maxTokens overlapTokens = [trimString text] := by
  have hsplit : splitParas text.data = [text.data] := by
    unfold splitParas
    rw [splitGo_no_double text.data [] 0 (by omega) (by simpa using hdn)]
    simp
  have hparas : paragraphsOf text = [trimChars text.data] := by
    unfold paragraphsOf
    rw [hsplit]
    simp [hnb]
  have hplen : (trimChars text.data).length < maxTokens :=
    lt_of_le_of_lt (trimChars_length_le _) hlen
  have hfold : (paragraphsOf text).foldl (stepParagraph maxTokens overlapTokens) ⟨[], []⟩
      = ⟨[], trimChars text.data ++ ['\n', '\n']⟩ := by
    rw [hparas]
    simp only [List.foldl_cons, List.foldl_nil]
    unfold stepParagraph
    rw [if_neg (by omega : ¬ maxTokens < (trimChars text.data).length)]
    rw [if_neg (show ¬ maxTokens
        < (⟨[], []⟩ : ChunkState).current.length + (trimChars text.data).length by
      simp only [List.length_nil, Nat.zero_add]
      omega)]
    simp
  have htrim : trimChars (trimChars text.data ++ ['\n', '\n']) = trimChars text.data := by
    rw [trimChars_append_sep]
    exact trimChars_idem _
  have hmain : chunkTextMain text maxTokens overlapTokens = [trimChars text.data] := by
    unfold chunkTextMain
    rw [hfold]
    show flushChunk ⟨[], trimChars text.data ++ ['\n', '\n']⟩ = [trimChars text.data]
    unfold flushChunk
    rw [if_neg (show ¬ (⟨[], trimChars text.data ++ ['\n', '\n']⟩ : ChunkState).current = []
      by simp)]
    have h2 : ¬ trimChars ((⟨[], trimChars text.data ++ ['\n', '\n']⟩ : ChunkState).current)
        = [] := by
      show ¬ trimChars (trimChars text.data ++ ['\n', '\n']) = []
      rw [htrim]
      exact hnb
    rw [if_neg h2]
    show [] ++ [trimChars (trimChars text.data ++ ['\n', '\n'])] = [trimChars text.data]
    rw [htrim]
    simp
  unfold chunkTextCore
  rw [hmain]
  rw [if_neg (show ¬ ([trimChars text.data] = ([] : List (List Char))) by simp)]
  rfl

/-- Claim C7, amended: for every non-blank input text containing no two
consecutive newline characters, whose token count is below the effective
maxTokens, chunkText returns exactly one chunk whose content is the
trimmed input.  A blank input returns no chunks, and an input with a
blank-line run of three or more newlines, or with whitespace adjacent to
the separator, is reassembled with the normalized two-newline separator
and so can differ from the trimmed input, see the counterexample. -/
theorem chunkText_single_chunk (text : String) (options : ChunkOptions)
    (hnb : trimChars text.data ≠ [])
    (hdn : hasDoubleNewline text.data = false)
    (hlen : estimateTokenCount text < options.maxTokens.getD 700) :
    chunkText text options = [trimString text] :=
  chunkTextCore_single text (options.maxTokens.getD 700) (options.overlapTokens.getD 100)
    hnb hdn hlen

/-- Witness instantiating the single-chunk property on a concrete short
string with surrounding whitespace. -/
theorem chunkText_single_chunk_witness :
    trimChars (" hello " : String).data ≠ []
    ∧ hasDoubleNewline (" hello " : String).data = false
    ∧ estimateTokenCount (" hello ") < ((⟨none, none⟩ : ChunkOptions).maxTokens.getD 700)
    ∧ chunkText (" hello ") ⟨none, none⟩ = [trimString (" hello ")] :=
  ⟨by decide, by decide, by decide,
    chunkText_single_chunk (" hello ") ⟨none, none⟩ (by decide) (by decide) (by decide)⟩

/-- Counterexample to claim C7 as stated: a five-token text below the
default maxTokens whose single returned chunk differs from the trimmed
input, because the three-newline separator is normalized to two
newlines. -/
theorem chunkText_single_chunk_counterexample :
    estimateTokenCount ("a\n\n\nb") < 700
    ∧ chunkText ("a\n\n\nb") ⟨none, none⟩ = [("a\n\nb" : String)]
    ∧ ("a\n\nb" : String) ≠ trimString ("a\n\n\nb") := by
  decide

/-- Claim C8: chunkText never emits an empty chunk or a chunk of zero
token count; on a non-blank input it returns at least one chunk, and
when the main algorithm produces none the trimmed original text is the
single fallback chunk. -/
theorem chunkText_no_empty_chunks (text : String) (options : ChunkOptions) :
    (∀ s ∈ chunkText text options, s ≠ "" ∧ estimateTokenCount s ≠ 0)
    ∧ (trimChars text.data ≠ [] →
        chunkText text options ≠ []
        ∧ (chunkTextMain text (options.maxTokens.getD 700)
              (options.overlapTokens.getD 100) = [] →
            chunkText text options = [trimString text])) := by
  constructor
  · intro s hs
    have key : ∃ c, s = String.mk c ∧ c ≠ [] := by
      unfold chunkText chunkTextCore at hs
      by_cases hmain : chunkTextMain text (options.maxTokens.getD 700)
          (options.overlapTokens.getD 100) = []
      · rw [if_pos hmain] at hs
        by_cases hnb : trimChars text.data = []
        · rw [if_pos hnb] at hs
          simp at hs
        · rw [if_neg hnb] at hs
          rcases List.mem_singleton.mp hs with rfl
          exact ⟨trimChars text.data, rfl, hnb⟩
      · rw [if_neg hmain] at hs
        rcases List.mem_map.mp hs with ⟨c, hc, rfl⟩
        exact ⟨c, rfl, (chunkTextMain_sound text _ _ c hc).2⟩
    rcases key with ⟨c, rfl, hc⟩
    have hlen : estimateTokenCount (String.mk c) ≠ 0 := by
      show c.length ≠ 0
      simpa using hc
    refine ⟨?_, hlen⟩
    intro h
    apply hlen
    rw [h]
    rfl
  · intro hnb
    unfold chunkText chunkTextCore
    by_cases hmain : chunkTextMain text (options.maxTokens.getD 700)
        (options.overlapTokens.getD 100) = []
    · rw [if_pos hmain, if_neg hnb]
      exact ⟨by simp, fun _ => rfl⟩
    · rw [if_neg hmain]
      refine ⟨?_, fun h => absurd h hmain⟩
      simp only [ne_eq, List.map_eq_nil]
      exact hmain

/-- Witness instantiating the non-empty-chunk property on a concrete
non-blank input. -/
theorem chunkText_no_empty_chunks_witness :
    trimChars ("x" : String).data ≠ [] ∧ chunkText ("x") ⟨none, none⟩ ≠ [] :=
  ⟨by decide, ((chunkText_no_empty_chunks ("x") ⟨none, none⟩).2 (by decide)).1⟩

/-! ## Storage-key sanitization claims -/

/-- Inside a run, the scanner skips the rest of the run: continuing in
run state equals restarting after dropping the remaining disallowed
characters. -/
theorem collapseRunsBy_inRun (allowed : Char → Bool) (out : Char) :
    ∀ cs : List Char, collapseRunsBy allowed out cs true
      = collapseRunsBy allowed out (cs.dropWhile (fun d => !allowed d)) false := by
  intro cs
  induction cs with
  | nil => rfl
  | cons c rest ih =>
    by_cases hc : allowed c
    · have : (c :: rest).dropWhile (fun d => !allowed d) = c :: rest := by
        rw [List.dropWhile_cons]
        simp [hc]
      rw [this]
      simp [collapseRunsBy, hc]
    · have : (c :: rest).dropWhile (fun d => !allowed d)
          = rest.dropWhile (fun d => !allowed d) := by
        rw [List.dropWhile_cons]
        simp [hc]
      rw [this]
      simp only [collapseRunsBy, if_neg hc, if_pos rfl]
      simpa [hc] using ih

/-- With sufficient fuel the specification-side run collapsing agrees
with the scanner model of the regex replace. -/
theorem specCollapseRunsF_eq (allowed : Char → Bool) (out : Char) :
    ∀ fuel cs, cs.length ≤ fuel →
      specCollapseRunsF allowed out fuel cs = collapseRunsBy allowed out cs false := by
  intro fuel
  induction fuel with
  | zero =>
    intro cs hle
    have : cs = [] := List.length_eq_zero.mp (by omega)
    subst this
    rfl
  | succ n ih =>
    intro cs hle
    rcases cs with _ | ⟨c, rest⟩
    · rfl
    · by_cases hc : allowed c
      · simp only [specCollapseRunsF, collapseRunsBy, if_pos hc]
        rw [ih rest (by simp only [List.length_cons] at hle; omega)]
      · simp only [specCollapseRunsF, collapseRunsBy, if_neg hc, if_pos rfl]
        have hlen : (rest.dropWhile (fun d => !allowed d)).length ≤ n := by
          have h1 : (rest.dropWhile (fun d => !allowed d)).length ≤ rest.length :=
            (List.dropWhile_sublist _).length_le
          simp only [List.length_cons] at hle
          omega
        rw [ih _ hlen, ← collapseRunsBy_inRun]
        simp

/-- The two formulations of run collapsing agree. -/
theorem specCollapseRuns_eq (allowed : Char → Bool) (out : Char) (cs : List Char) :
    specCollapseRuns allowed out cs = collapseRunsBy allowed out cs false :=
  specCollapseRunsF_eq allowed out cs.length cs (Nat.le_refl _)

/-- The sanitizer of the source equals the sanitizer assembled from the
specification-side formulation of the amended claim. -/
theorem sanitizeFileName_eq_spec (fileName : String) :
    sanitizeFileName fileName = sanitizeFileNameSpec fileName := by
  unfold sanitizeFileName sanitizeFileNameSpec
  rw [specCollapseRuns_eq, specCollapseRuns_eq]

/-- A string built from characters is empty exactly when the character
list is. -/
theorem string_mk_eq_empty_iff (l : List Char) : String.mk l = ("" : String) ↔ l = [] := by
  constructor
  · intro h
    have := congrArg String.data h
    simpa using this
  · intro h
    subst h
    rfl

/-- Claim C9, amended: generateDocumentStorageKey deterministically
returns the key built from the knowledge base id, the document id and
the sanitized file name, where sanitization collapses every run of
characters outside alphanumerics, dot, underscore and hyphen into a
single hyphen, then collapses runs of hyphens into one hyphen, strips a
leading and a trailing hyphen run, rewrites every hyphen-dot pair to the
dot, and falls back to the literal name document when the result is
empty. -/
theorem generateDocumentStorageKey_spec (knowledgeBaseId documentId fileName : String) :
    generateDocumentStorageKey knowledgeBaseId documentId fileName
      = ("knowledge-bases/" : String) ++ knowledgeBaseId ++ ("/" : String) ++ documentId
        ++ ("/" : String)
        ++ (if sanitizeFileNameSpec fileName = ("" : String) then ("document" : String)
            else sanitizeFileNameSpec fileName) := by
  unfold generateDocumentStorageKey
  rw [sanitizeFileName_eq_spec]
  by_cases h : sanitizeFileNameSpec fileName = ("" : String)
  · have hlen : (sanitizeFileNameSpec fileName).length = 0 := by
      rw [h]
      rfl
    simp [h, hlen]
  · have hlen : (sanitizeFileNameSpec fileName).length ≠ 0 := by
      intro hzero
      apply h
      unfold sanitizeFileNameSpec at hzero ⊢
      rw [string_mk_eq_empty_iff]
      exact List.length_eq_zero.mp (by simpa using hzero)
    simp [h, hlen]

/-- Counterexample to claim C9 as stated: on the file name of the
repository's own test the code performs the additional hyphen-run,
edge-hyphen and hyphen-dot normalizations, so the key differs from the
one built with only the collapse of disallowed runs that the claim
describes. -/
theorem generateDocumentStorageKey_counterexample :
    generateDocumentStorageKey ("kb-123") ("doc-456") ("Q4 Report (Final).pdf")
      = ("knowledge-bases/kb-123/doc-456/Q4-Report-Final.pdf" : String)
    ∧ sanitizeFileNameClaim ("Q4 Report (Final).pdf") = ("Q4-Report-Final-.pdf" : String)
    ∧ generateDocumentStorageKey ("kb-123") ("doc-456") ("Q4 Report (Final).pdf")
      ≠ ("knowledge-bases/kb-123/doc-456/" : String)
        ++ sanitizeFileNameClaim ("Q4 Report (Final).pdf") := by
  decide

/-! ## Claim protocol of markDocumentProcessing -/

/-- Membership in the claim filter spelled out. -/
theorem mem_claim_filter (db : Db) (documentId : String) (d : DocumentRow) :
    d ∈ db.documents.filter (isPendingDoc documentId)
      ↔ d ∈ db.documents ∧ d.id = documentId ∧ d.status = DOCUMENT_STATUS_PENDING := by
  rw [List.mem_filter]
  simp [isPendingDoc]

/-- Claim C1: markDocumentProcessing succeeds exactly when a row with
the given id is still pending; on failure the database is unchanged; a
returned row is the claimed document now in processing status; and a
second claim of the same document always fails, so at most one claimant
wins. -/
theorem markDocumentProcessing_claims_only_pending (db : Db) (now now2 : Nat)
    (documentId : String) :
    ((markDocumentProcessing db now documentId).1.isSome
        ↔ ∃ d ∈ db.documents, d.id = documentId ∧ d.status = DOCUMENT_STATUS_PENDING)
    ∧ ((markDocumentProcessing db now documentId).1 = none
        → (markDocumentProcessing db now documentId).2 = db)
    ∧ (∀ c, (markDocumentProcessing db now documentId).1 = some c
        → c.id = documentId ∧ c.status = DOCUMENT_STATUS_PROCESSING
          ∧ ∃ d ∈ db.documents, d.id = documentId ∧ d.status = DOCUMENT_STATUS_PENDING
              ∧ c = claimDoc now d)
    ∧ (markDocumentProcessing (markDocumentProcessing db now documentId).2 now2
        documentId).1 = none := by
  refine ⟨?_, ?_, ?_, ?_⟩
  · show ((db.documents.filter (isPendingDoc documentId)).head?.map (claimDoc now)).isSome
        ↔ _
    rcases hh : (db.documents.filter (isPendingDoc documentId)).head? with _ | d
    · have hnil : db.documents.filter (isPendingDoc documentId) = [] :=
        List.head?_eq_none_iff.mp hh
      simp only [Option.map_none', Option.isSome_none]
      constructor
      · intro h
        exact absurd h (by simp)
      · rintro ⟨d, hd, hid, hst⟩
        have : d ∈ db.documents.filter (isPendingDoc documentId) :=
          (mem_claim_filter db documentId d).mpr ⟨hd, hid, hst⟩
        rw [hnil] at this
        simp at this
    · simp only [Option.map_some', Option.isSome_some, true_iff]
      have hd : d ∈ db.documents.filter (isPendingDoc documentId) := by
        rcases List.head?_eq_some_iff.mp hh with ⟨ys, hys⟩
        rw [hys]
        exact List.mem_cons_self _ _
      rcases (mem_claim_filter db documentId d).mp hd with ⟨h1, h2, h3⟩
      exact ⟨d, h1, h2, h3⟩
  · intro hnone
    show ({ db with documents := db.documents.map (fun d =>
        if isPendingDoc documentId d then claimDoc now d else d) }) = db
    have hnil : db.documents.filter (isPendingDoc documentId) = [] := by
      rcases hh : (db.documents.filter (isPendingDoc documentId)).head? with _ | d
      · exact List.head?_eq_none_iff.mp hh
      · rw [show (markDocumentProcessing db now documentId).1
            = ((db.documents.filter (isPendingDoc documentId)).head?.map (claimDoc now))
            from rfl, hh] at hnone
        simp at hnone
    have hall : ∀ d ∈ db.documents, isPendingDoc documentId d = false := by
      intro d hd
      by_contra h
      have hpred : isPendingDoc documentId d = true := by
        revert h
        rcases isPendingDoc documentId d with _ | _ <;> simp
      have : d ∈ db.documents.filter (isPendingDoc documentId) :=
        List.mem_filter.mpr ⟨hd, hpred⟩
      rw [hnil] at this
      simp at this
    have hmap : db.documents.map (fun d =>
        if isPendingDoc documentId d then claimDoc now d else d) = db.documents := by
      have := List.map_congr_left (l := db.documents)
        (f := fun d => if isPendingDoc documentId d then claimDoc now d else d)
        (g := id) (fun d hd => by simp [hall d hd])
      simpa using this
    rw [hmap]
  · intro c hc
    rw [show (markDocumentProcessing db now documentId).1
        = ((db.documents.filter (isPendingDoc documentId)).head?.map (claimDoc now))
        from rfl] at hc
    rcases hh : (db.documents.filter (isPendingDoc documentId)).head? with _ | d
    · rw [hh] at hc
      simp at hc
    · rw [hh] at hc
      simp only [Option.map_some', Option.some.injEq] at hc
      subst hc
      have hd : d ∈ db.documents.filter (isPendingDoc documentId) := by
        rcases List.head?_eq_some_iff.mp hh with ⟨ys, hys⟩
        rw [hys]
        exact List.mem_cons_self _ _
      rcases (mem_claim_filter db documentId d).mp hd with ⟨h1, h2, h3⟩
      exact ⟨by simp [claimDoc, h2], rfl, d, h1, h2, h3, rfl⟩
  · show (((markDocumentProcessing db now documentId).2.documents.filter
        (isPendingDoc documentId)).head?.map (claimDoc now2)) = none
    have hnil : (markDocumentProcessing db now documentId).2.documents.filter
        (isPendingDoc documentId) = [] := by
      apply List.filter_eq_nil_iff.mpr
      intro x hx
      rcases List.mem_map.mp hx with ⟨d, _, rfl⟩
      by_cases hpred : isPendingDoc documentId d = true
      · rw [if_pos hpred]
        simp [isPendingDoc, claimDoc, DOCUMENT_STATUS_PROCESSING, DOCUMENT_STATUS_PENDING]
      · rw [if_neg hpred]
        simpa using hpred
    rw [hnil]
    rfl

/-- Witness: a database with one pending document is claimed, and the
second claim fails. -/
theorem markDocumentProcessing_claims_only_pending_witness :
    ((markDocumentProcessing
        { documents := [{ id := "d1", status := "pending" : DocumentRow }] } 3 ("d1")).1.isSome)
    ∧ (markDocumentProcessing (markDocumentProcessing
        { documents := [{ id := "d1", status := "pending" : DocumentRow }] } 3 ("d1")).2 4
        ("d1")).1 = none :=
  ⟨(markDocumentProcessing_claims_only_pending
      { documents := [{ id := "d1", status := "pending" : DocumentRow }] } 3 4 ("d1")).1.mpr
      ⟨{ id := "d1", status := "pending" : DocumentRow }, by decide, by decide, by decide⟩,
    (markDocumentProcessing_claims_only_pending
      { documents := [{ id := "d1", status := "pending" : DocumentRow }] } 3 4 ("d1")).2.2.2⟩

/-! ## Access-control claims -/

/-- The read rule as the specification words it: the user owns the
knowledge base, or its visibility is public or readonly, or it belongs
to an organization of which the user is a member. -/
def specCanRead (db : Db) (kb : KnowledgeBaseRow) (userId : String) : Prop :=
  kb.ownerUserId = userId ∨ kb.visibility = "public" ∨ kb.visibility = "readonly"
    ∨ ∃ m ∈ db.members, kb.organizationId = some m.organizationId ∧ m.userId = userId

/-- The write rule as the specification words it: the user owns the
knowledge base, or it belongs to an organization the user is a member of
and its visibility is not readonly. -/
def specCanWrite (db : Db) (kb : KnowledgeBaseRow) (userId : String) : Prop :=
  kb.ownerUserId = userId
    ∨ ((∃ m ∈ db.members, kb.organizationId = some m.organizationId ∧ m.userId = userId)
        ∧ kb.visibility ≠ "readonly")

instance (db : Db) (kb : KnowledgeBaseRow) (userId : String) :
    Decidable (specCanRead db kb userId) := by
  unfold specCanRead
  infer_instance

instance (db : Db) (kb : KnowledgeBaseRow) (userId : String) :
    Decidable (specCanWrite db kb userId) := by
  unfold specCanWrite
  infer_instance

/-- The membership test witnesses an organization-member row matching the
knowledge base's organization. -/
theorem isMemberOf_iff (db : Db) (organizationId : Option String) (userId : String) :
    isMemberOf db organizationId userId = true
      ↔ ∃ m ∈ db.members, organizationId = some m.organizationId ∧ m.userId = userId := by
  simp [isMemberOf]

/-- Lookup by id finds the unique row with that id. -/
theorem find?_id_eq (l : List KnowledgeBaseRow) (kb : KnowledgeBaseRow) (hkb : kb ∈ l)
    (hnodup : (l.map (fun k => k.id)).Nodup) :
    l.find? (fun k => decide (k.id = kb.id)) = some kb := by
  induction l with
  | nil => simp at hkb
  | cons a tl ih =>
    rw [List.map_cons] at hnodup
    rcases List.nodup_cons.mp hnodup with ⟨hnotin, htl⟩
    by_cases ha : a.id = kb.id
    · have haeq : a = kb := by
        rcases List.mem_cons.mp hkb with h | h
        · exact h.symm
        · exfalso
          apply hnotin
          rw [ha]
          exact List.mem_map.mpr ⟨kb, h, rfl⟩
      rw [List.find?_cons_of_pos _ (by simp [ha])]
      rw [haeq]
    · rw [List.find?_cons_of_neg _ (by simp [ha])]
      apply ih
      · rcases List.mem_cons.mp hkb with h | h
        · exact absurd (h ▸ rfl) ha
        · exact h
      · exact htl

/-- The full shape of loadKnowledgeBaseRow on the unique row with the
requested id. -/
theorem loadKnowledgeBaseRow_eq (db : Db) (kb : KnowledgeBaseRow) (userId : String)
    (hkb : kb ∈ db.knowledgeBases)
    (hnodup : (db.knowledgeBases.map (fun k => k.id)).Nodup) :
    loadKnowledgeBaseRow db kb.id userId
      = (if (decide (kb.ownerUserId = userId) || decide (kb.visibility = "public")
            || decide (kb.visibility = "readonly")
            || (kb.organizationId.isSome && isMemberOf db kb.organizationId userId)) = true
        then
          some
            { knowledgeBase := toKnowledgeBase kb (mapDocumentCounts db [kb.id] kb.id)
              canRead := decide (kb.ownerUserId = userId) || decide (kb.visibility = "public")
                || decide (kb.visibility = "readonly")
                || (kb.organizationId.isSome && isMemberOf db kb.organizationId userId)
              canWrite := decide (kb.ownerUserId = userId)
                || (kb.organizationId.isSome && isMemberOf db kb.organizationId userId
                    && !(decide (kb.visibility = "readonly"))) }
        else none) := by
  unfold loadKnowledgeBaseRow
  rw [find?_id_eq db.knowledgeBases kb hkb hnodup]

/-- The computed read capability equals the specification's read rule. -/
theorem canRead_bool_iff (db : Db) (kb : KnowledgeBaseRow) (userId : String) :
    (decide (kb.ownerUserId = userId) || decide (kb.visibility = "public")
        || decide (kb.visibility = "readonly")
        || (kb.organizationId.isSome && isMemberOf db kb.organizationId userId)) = true
      ↔ specCanRead db kb userId := by
  unfold specCanRead
  simp only [Bool.or_eq_true, Bool.and_eq_true, decide_eq_true_eq, isMemberOf_iff]
  constructor
  · rintro (((h | h) | h) | ⟨_, h⟩)
    · exact Or.inl h
    · exact Or.inr (Or.inl h)
    · exact Or.inr (Or.inr (Or.inl h))
    · exact Or.inr (Or.inr (Or.inr h))
  · rintro (h | h | h | h)
    · exact Or.inl (Or.inl (Or.inl h))
    · exact Or.inl (Or.inl (Or.inr h))
    · exact Or.inl (Or.inr h)
    · refine Or.inr ⟨?_, h⟩
      rcases h with ⟨m, _, horg, _⟩
      rw [horg]
      rfl

/-- The computed write capability equals the specification's write rule. -/
theorem canWrite_bool_iff (db : Db) (kb : KnowledgeBaseRow) (userId : String) :
    (decide (kb.ownerUserId = userId)
        || (kb.organizationId.isSome && isMemberOf db kb.organizationId userId
            && !(decide (kb.visibility = "readonly")))) = true
      ↔ specCanWrite db kb userId := by
  unfold specCanWrite
  simp only [Bool.or_eq_true, Bool.and_eq_true, Bool.not_eq_true', decide_eq_false_iff_not,
    decide_eq_true_eq, isMemberOf_iff]
  constructor
  · rintro (h | ⟨⟨_, h⟩, hr⟩)
    · exact Or.inl h
    · exact Or.inr ⟨h, hr⟩
  · rintro (h | ⟨h, hr⟩)
    · exact Or.inl h
    · refine Or.inr ⟨⟨?_, h⟩, hr⟩
      rcases h with ⟨m, _, horg, _⟩
      rw [horg]
      rfl

/-- The write rule implies the read rule. -/
theorem specCanWrite_implies_read (db : Db) (kb : KnowledgeBaseRow) (userId : String)
    (h : specCanWrite db kb userId) : specCanRead db kb userId := by
  rcases h with h | ⟨h, _⟩
  · exact Or.inl h
  · exact Or.inr (Or.inr (Or.inr h))

/-- Read access of loadKnowledgeBaseRow is exactly the read rule. -/
theorem loadKnowledgeBaseRow_isSome (db : Db) (kb : KnowledgeBaseRow) (userId : String)
    (hkb : kb ∈ db.knowledgeBases)
    (hnodup : (db.knowledgeBases.map (fun k => k.id)).Nodup) :
    (loadKnowledgeBaseRow db kb.id userId).isSome ↔ specCanRead db kb userId := by
  rw [loadKnowledgeBaseRow_eq db kb userId hkb hnodup]
  by_cases h : (decide (kb.ownerUserId = userId) || decide (kb.visibility = "public")
      || decide (kb.visibility = "readonly")
      || (kb.organizationId.isSome && isMemberOf db kb.organizationId userId)) = true
  · rw [if_pos h]
    simpa using (canRead_bool_iff db kb userId).mp h
  · rw [if_neg h]
    simp only [Option.isSome_none, Bool.false_eq_true, false_iff]
    intro hs
    exact h ((canRead_bool_iff db kb userId).mpr hs)

/-- The access record of loadKnowledgeBaseRow carries the mapped
knowledge base and the write capability given by the write rule. -/
theorem loadKnowledgeBaseRow_some (db : Db) (kb : KnowledgeBaseRow) (userId : String)
    (hkb : kb ∈ db.knowledgeBases)
    (hnodup : (db.knowledgeBases.map (fun k => k.id)).Nodup)
    (a : KnowledgeBaseAccess) (ha : loadKnowledgeBaseRow db kb.id userId = some a) :
    a.knowledgeBase = toKnowledgeBase kb (mapDocumentCounts db [kb.id] kb.id)
      ∧ (a.canWrite = true ↔ specCanWrite db kb userId) := by
  rw [loadKnowledgeBaseRow_eq db kb userId hkb hnodup] at ha
  by_cases h : (decide (kb.ownerUserId = userId) || decide (kb.visibility = "public")
      || decide (kb.visibility = "readonly")
      || (kb.organizationId.isSome && isMemberOf db kb.organizationId userId)) = true
  · rw [if_pos h] at ha
    rcases Option.some.injEq .. ▸ ha with rfl
    exact ⟨rfl, canWrite_bool_iff db kb userId⟩
  · rw [if_neg h] at ha
    simp at ha

/-- The listing filter equals the specification's read rule. -/
theorem accessibleFilter_iff (db : Db) (userId : String) (kb : KnowledgeBaseRow) :
    accessibleFilter db userId kb = true ↔ specCanRead db kb userId := by
  unfold accessibleFilter specCanRead
  simp only [Bool.or_eq_true, decide_eq_true_eq, isMemberOf_iff]
  constructor
  · rintro (((h | h) | h) | h)
    · exact Or.inl h
    · exact Or.inr (Or.inl h)
    · exact Or.inr (Or.inr (Or.inl h))
    · exact Or.inr (Or.inr (Or.inr h))
  · rintro (h | h | h | h)
    · exact Or.inl (Or.inl (Or.inl h))
    · exact Or.inl (Or.inl (Or.inr h))
    · exact Or.inl (Or.inr h)
    · exact Or.inr h

/-- Claim C3: for every knowledge base and acting user, read access,
both as getKnowledgeBaseById returning the knowledge base rather than
nothing and as inclusion in listKnowledgeBasesForUser, is granted if
and only if the user owns the knowledge base, or its visibility is
public or readonly, or the knowledge base belongs to an organization of
which the user is a member. -/
theorem knowledgeBase_read_access_iff (db : Db) (userId : String) (kb : KnowledgeBaseRow)
    (hkb : kb ∈ db.knowledgeBases)
    (hnodup : (db.knowledgeBases.map (fun k => k.id)).Nodup) :
    ((getKnowledgeBaseById db kb.id userId).isSome ↔ specCanRead db kb userId)
    ∧ ((∃ s ∈ listKnowledgeBasesForUser db userId, s.id = kb.id)
        ↔ specCanRead db kb userId) := by
  constructor
  · rw [show getKnowledgeBaseById db kb.id userId
        = (loadKnowledgeBaseRow db kb.id userId).map (fun a => a.knowledgeBase) from rfl]
    rw [Option.isSome_map']
    exact loadKnowledgeBaseRow_isSome db kb userId hkb hnodup
  · unfold listKnowledgeBasesForUser listAccessibleKnowledgeBases
    simp only []
    constructor
    · rintro ⟨s, hs, hid⟩
      rcases List.mem_map.mp hs with ⟨row, hrow, hmk⟩
      have hrow' : row ∈ db.knowledgeBases.filter (accessibleFilter db userId) :=
        (List.perm_insertionSort _ _).mem_iff.mp hrow
      rcases List.mem_filter.mp hrow' with ⟨hrowmem, hrowacc⟩
      have hrowid : row.id = kb.id := by
        rw [← hid, ← hmk]
        simp [toKnowledgeBase]
      have hroweq : row = kb :=
        List.inj_on_of_nodup_map hnodup hrowmem hkb hrowid
      rw [← hroweq]
      exact (accessibleFilter_iff db userId row).mp hrowacc
    · intro hread
      have hacc : accessibleFilter db userId kb = true :=
        (accessibleFilter_iff db userId kb).mpr hread
      have hmem : kb ∈ List.insertionSort (fun a b => b.updatedAt ≤ a.updatedAt)
          (db.knowledgeBases.filter (accessibleFilter db userId)) :=
        (List.perm_insertionSort _ _).mem_iff.mpr (List.mem_filter.mpr ⟨hkb, hacc⟩)
      refine ⟨_, List.mem_map.mpr ⟨kb, hmem, rfl⟩, ?_⟩
      simp [toKnowledgeBase]

/-- Witness: the owner of a private knowledge base reads it, both in the
point lookup and in the listing. -/
theorem knowledgeBase_read_access_iff_witness :
    (getKnowledgeBaseById
        { knowledgeBases := [{ id := "kb1", ownerUserId := "u1" : KnowledgeBaseRow }] }
        ("kb1") ("u1")).isSome
    ∧ ∃ s ∈ listKnowledgeBasesForUser
        { knowledgeBases := [{ id := "kb1", ownerUserId := "u1" : KnowledgeBaseRow }] }
        ("u1"), s.id = ("kb1" : String) :=
  ⟨(knowledgeBase_read_access_iff
      { knowledgeBases := [{ id := "kb1", ownerUserId := "u1" : KnowledgeBaseRow }] }
      ("u1") { id := "kb1", ownerUserId := "u1" : KnowledgeBaseRow }
      (by decide) (by decide)).1.mpr (by decide),
    (knowledgeBase_read_access_iff
      { knowledgeBases := [{ id := "kb1", ownerUserId := "u1" : KnowledgeBaseRow }] }
      ("u1") { id := "kb1", ownerUserId := "u1" : KnowledgeBaseRow }
      (by decide) (by decide)).2.mpr (by decide)⟩

/-- Document lookup by id finds the unique row with that id. -/
theorem find?_docId_eq (l : List DocumentRow) (d : DocumentRow) (hd : d ∈ l)
    (hnodup : (l.map (fun x => x.id)).Nodup) :
    l.find? (fun x => decide (x.id = d.id)) = some d := by
  induction l with
  | nil => simp at hd
  | cons a tl ih =>
    rw [List.map_cons] at hnodup
    rcases List.nodup_cons.mp hnodup with ⟨hnotin, htl⟩
    by_cases ha : a.id = d.id
    · have haeq : a = d := by
        rcases List.mem_cons.mp hd with h | h
        · exact h.symm
        · exfalso
          apply hnotin
          rw [ha]
          exact List.mem_map.mpr ⟨d, h, rfl⟩
      rw [List.find?_cons_of_pos _ (by simp [ha])]
      rw [haeq]
    · rw [List.find?_cons_of_neg _ (by simp [ha])]
      apply ih
      · rcases List.mem_cons.mp hd with h | h
        · exact absurd (h ▸ rfl) ha
        · exact h
      · exact htl

/-- Exhaustive case analysis of loadKnowledgeBaseRow on the unique row
with the requested id. -/
theorem loadKB_cases (db : Db) (kb : KnowledgeBaseRow) (userId : String)
    (hkb : kb ∈ db.knowledgeBases)
    (hnodup : (db.knowledgeBases.map (fun k => k.id)).Nodup) :
    (loadKnowledgeBaseRow db kb.id userId = none ∧ ¬ specCanRead db kb userId)
    ∨ (∃ a, loadKnowledgeBaseRow db kb.id userId = some a
        ∧ a.knowledgeBase = toKnowledgeBase kb (mapDocumentCounts db [kb.id] kb.id)
        ∧ (a.canWrite = true ↔ specCanWrite db kb userId)
        ∧ specCanRead db kb userId) := by
  rcases hload : loadKnowledgeBaseRow db kb.id userId with _ | a
  · left
    refine ⟨rfl, ?_⟩
    intro hread
    have := (loadKnowledgeBaseRow_isSome db kb userId hkb hnodup).mpr hread
    rw [hload] at this
    simp at this
  · right
    refine ⟨a, rfl, ?_, ?_, ?_⟩
    · exact (loadKnowledgeBaseRow_some db kb userId hkb hnodup a hload).1
    · exact (loadKnowledgeBaseRow_some db kb userId hkb hnodup a hload).2
    · apply (loadKnowledgeBaseRow_isSome db kb userId hkb hnodup).mp
      rw [hload]
      rfl

/-- Claim C4: write capability as computed by the repository holds if
and only if the user owns the knowledge base or is a member of its
organization with visibility not readonly; the four mutating document
and metadata operations succeed exactly under that capability; and
deleteKnowledgeBase removes the knowledge base exactly when the acting
user is its owner, leaving the database unchanged for any non-owner. -/
theorem knowledgeBase_write_capability_iff (db : Db) (now : Nat)
    (newId userId fileName : String) (kb : KnowledgeBaseRow) (doc : DocumentRow)
    (payload : InsertDocumentPayload) (upayload : UpdateKnowledgeBasePayload)
    (hkb : kb ∈ db.knowledgeBases)
    (hnodupK : (db.knowledgeBases.map (fun k => k.id)).Nodup)
    (hdoc : doc ∈ db.documents)
    (hdockb : doc.knowledgeBaseId = kb.id)
    (hnodupD : (db.documents.map (fun x => x.id)).Nodup)
    (hpay : payload.knowledgeBaseId = kb.id)
    (hupay : upayload.organizationId = none) :
    (∀ a, loadKnowledgeBaseRow db kb.id userId = some a
        → (a.canWrite = true ↔ specCanWrite db kb userId))
    ∧ ((∃ r, insertDocumentPlaceholder db now newId userId payload = Except.ok r)
        ↔ specCanWrite db kb userId)
    ∧ ((updateDocument db now doc.id userId fileName).isSome ↔ specCanWrite db kb userId)
    ∧ ((∃ db', deleteDocument db doc.id userId = Except.ok db')
        ↔ specCanWrite db kb userId)
    ∧ ((∃ k db', updateKnowledgeBase db now kb.id userId upayload
          = Except.ok (some (k, db'))) ↔ specCanWrite db kb userId)
    ∧ (kb.ownerUserId = userId
        → deleteKnowledgeBase db kb.id userId
          = Except.ok { db with knowledgeBases :=
              db.knowledgeBases.filter (fun k => !(decide (k.id = kb.id))) }
          ∧ kb ∉ db.knowledgeBases.filter (fun k => !(decide (k.id = kb.id))))
    ∧ (kb.ownerUserId ≠ userId
        → ∀ db', deleteKnowledgeBase db kb.id userId = Except.ok db' → db' = db) := by
  have howner : (toKnowledgeBase kb (mapDocumentCounts db [kb.id] kb.id)).ownerUserId
      = kb.ownerUserId := rfl
  refine ⟨?_, ?_, ?_, ?_, ?_, ?_, ?_⟩
  · intro a ha
    exact (loadKnowledgeBaseRow_some db kb userId hkb hnodupK a ha).2
  · unfold insertDocumentPlaceholder
    rw [hpay]
    rcases loadKB_cases db kb userId hkb hnodupK with ⟨hnone, hnoread⟩
      | ⟨a, hsome, _, hacw, _⟩
    · rw [hnone]
      simp only []
      constructor
      · rintro ⟨r, hr⟩
        exact absurd hr (by simp)
      · intro hw
        exact absurd (specCanWrite_implies_read db kb userId hw) hnoread
    · rw [hsome]
      simp only []
      by_cases hw : specCanWrite db kb userId
      · have : a.canWrite = true := hacw.mpr hw
        rw [this]
        simp only [Bool.not_true]
        exact ⟨fun _ => hw, fun _ => ⟨_, by rw [if_neg (by simp)]⟩⟩
      · have : a.canWrite = false := by
          rcases h : a.canWrite with _ | _
          · rfl
          · exact absurd (hacw.mp h) hw
        rw [this]
        simp only [Bool.not_false, if_pos rfl]
        constructor
        · rintro ⟨r, hr⟩
          exact absurd hr (by simp)
        · intro h
          exact absurd h hw
  · unfold updateDocument
    rw [find?_docId_eq db.documents doc hdoc hnodupD]
    simp only []
    rw [hdockb]
    rcases loadKB_cases db kb userId hkb hnodupK with ⟨hnone, hnoread⟩
      | ⟨a, hsome, _, hacw, _⟩
    · rw [hnone]
      simp only [Option.isSome_none, Bool.false_eq_true, false_iff]
      intro hw
      exact absurd (specCanWrite_implies_read db kb userId hw) hnoread
    · rw [hsome]
      simp only []
      by_cases hw : specCanWrite db kb userId
      · have : a.canWrite = true := hacw.mpr hw
        rw [this]
        simp only [Bool.not_true, Bool.false_eq_true, if_false]
        simpa using hw
      · have : a.canWrite = false := by
          rcases h : a.canWrite with _ | _
          · rfl
          · exact absurd (hacw.mp h) hw
        rw [this]
        simp only [Bool.not_false, if_pos rfl]
        simpa using hw
  · unfold deleteDocument
    rw [find?_docId_eq db.documents doc hdoc hnodupD]
    simp only []
    rw [hdockb]
    rcases loadKB_cases db kb userId hkb hnodupK with ⟨hnone, hnoread⟩
      | ⟨a, hsome, _, hacw, _⟩
    · rw [hnone]
      simp only []
      constructor
      · rintro ⟨db', hdb'⟩
        exact absurd hdb' (by simp)
      · intro hw
        exact absurd (specCanWrite_implies_read db kb userId hw) hnoread
    · rw [hsome]
      simp only []
      by_cases hw : specCanWrite db kb userId
      · have : a.canWrite = true := hacw.mpr hw
        rw [this]
        simp only [Bool.not_true, Bool.false_eq_true, if_false]
        exact ⟨fun _ => hw, fun _ => ⟨_, rfl⟩⟩
      · have : a.canWrite = false := by
          rcases h : a.canWrite with _ | _
          · rfl
          · exact absurd (hacw.mp h) hw
        rw [this]
        simp only [Bool.not_false, if_pos rfl]
        constructor
        · rintro ⟨db', hdb'⟩
          exact absurd hdb' (by simp)
        · intro h
          exact absurd h hw
  · unfold updateKnowledgeBase
    rcases loadKB_cases db kb userId hkb hnodupK with ⟨hnone, hnoread⟩
      | ⟨a, hsome, _, hacw, _⟩
    · rw [hnone]
      simp only []
      constructor
      · rintro ⟨k, db', hk⟩
        exact absurd hk (by simp)
      · intro hw
        exact absurd (specCanWrite_implies_read db kb userId hw) hnoread
    · rw [hsome]
      simp only []
      by_cases hw : specCanWrite db kb userId
      · have hcw : a.canWrite = true := hacw.mpr hw
        rw [hcw]
        simp only [Bool.not_true, Bool.false_eq_true, if_false]
        have hck : checkOrganizationChange db a.knowledgeBase userId upayload
            = Except.ok () := by
          unfold checkOrganizationChange
          rw [hupay]
        rw [hck]
        simp only []
        have hfind : ∃ u, (db.knowledgeBases.map (fun k =>
            if decide (k.id = kb.id) then
              updatedKnowledgeBaseRow now a.knowledgeBase upayload k
            else k)).find? (fun k => decide (k.id = kb.id)) = some u := by
          apply Option.isSome_iff_exists.mp
          apply List.find?_isSome.mpr
          refine ⟨_, List.mem_map.mpr ⟨kb, hkb, rfl⟩, ?_⟩
          by_cases h : decide (kb.id = kb.id) = true
          · rw [if_pos h]
            simp [updatedKnowledgeBaseRow]
          · simp at h
        rcases hfind with ⟨u, hu⟩
        rw [hu]
        exact ⟨fun _ => hw, fun _ => ⟨_, _, rfl⟩⟩
      · have : a.canWrite = false := by
          rcases h : a.canWrite with _ | _
          · rfl
          · exact absurd (hacw.mp h) hw
        rw [this]
        simp only [Bool.not_false, if_pos rfl]
        constructor
        · rintro ⟨k, db', hk⟩
          simp at hk
        · intro h
          exact absurd h hw
  · intro howneq
    unfold deleteKnowledgeBase
    rcases loadKB_cases db kb userId hkb hnodupK with ⟨_, hnoread⟩
      | ⟨a, hsome, hakb, _, _⟩
    · exact absurd (Or.inl howneq) hnoread
    · rw [hsome]
      simp only []
      have hown : a.knowledgeBase.ownerUserId = userId := by
        rw [hakb, howner]
        exact howneq
      rw [if_neg (by simpa using hown)]
      refine ⟨rfl, ?_⟩
      intro hmem
      rcases List.mem_filter.mp hmem with ⟨_, hpred⟩
      simp at hpred
  · intro howneq db' hdb'
    unfold deleteKnowledgeBase at hdb'
    rcases loadKB_cases db kb userId hkb hnodupK with ⟨hnone, _⟩
      | ⟨a, hsome, hakb, _, _⟩
    · rw [hnone] at hdb'
      simp only [Except.ok.injEq] at hdb'
      exact hdb'.symm
    · rw [hsome] at hdb'
      simp only [] at hdb'
      have hown : a.knowledgeBase.ownerUserId ≠ userId := by
        rw [hakb, howner]
        exact howneq
      rw [if_pos (by simpa using hown)] at hdb'
      exact absurd hdb' (by simp)

/-- Witness: the owner of a knowledge base inserts a document
placeholder and renames a document. -/
theorem knowledgeBase_write_capability_iff_witness :
    (∃ r, insertDocumentPlaceholder
        { knowledgeBases := [{ id := "kb1", ownerUserId := "u1" : KnowledgeBaseRow }]
          documents := [{ id := "d1", knowledgeBaseId := "kb1" : DocumentRow }] }
        0 ("nd") ("u1") { knowledgeBaseId := "kb1" } = Except.ok r)
    ∧ (updateDocument
        { knowledgeBases := [{ id := "kb1", ownerUserId := "u1" : KnowledgeBaseRow }]
          documents := [{ id := "d1", knowledgeBaseId := "kb1" : DocumentRow }] }
        0 ("d1") ("u1") ("f2")).isSome :=
  ⟨(knowledgeBase_write_capability_iff
      { knowledgeBases := [{ id := "kb1", ownerUserId := "u1" : KnowledgeBaseRow }]
        documents := [{ id := "d1", knowledgeBaseId := "kb1" : DocumentRow }] }
      0 ("nd") ("u1") ("f2") { id := "kb1", ownerUserId := "u1" : KnowledgeBaseRow }
      { id := "d1", knowledgeBaseId := "kb1" : DocumentRow }
      { knowledgeBaseId := "kb1" } {} (by decide) (by decide) (by decide) (by decide)
      (by decide) (by decide) (by decide)).2.1.mpr (by decide),
    (knowledgeBase_write_capability_iff
      { knowledgeBases := [{ id := "kb1", ownerUserId := "u1" : KnowledgeBaseRow }]
        documents := [{ id := "d1", knowledgeBaseId := "kb1" : DocumentRow }] }
      0 ("nd") ("u1") ("f2") { id := "kb1", ownerUserId := "u1" : KnowledgeBaseRow }
      { id := "d1", knowledgeBaseId := "kb1" : DocumentRow }
      { knowledgeBaseId := "kb1" } {} (by decide) (by decide) (by decide) (by decide)
      (by decide) (by decide) (by decide)).2.2.1.mpr (by decide)⟩

/-! ## Similarity search claims -/

/-- Every search result list is the image of a distance-sorted list of
eligible chunk-document pairs of length at most the limit. -/
theorem search_exists_pairs (distFn : List Rat → List Rat → Rat) (db : Db)
    (knowledgeBaseIds : List String) (embedding : List Rat) (limit : Nat) :
    ∃ pairs : List (ChunkRow × DocumentRow),
      searchKnowledgeBaseChunks distFn db knowledgeBaseIds embedding limit
        = pairs.map (mkSearchResult distFn embedding)
      ∧ pairs.length ≤ limit
      ∧ pairs.Pairwise (fun a b =>
          distFn a.1.embedding embedding ≤ distFn b.1.embedding embedding)
      ∧ ∀ p ∈ pairs, p.1 ∈ db.chunks ∧ p.2 ∈ db.documents ∧ p.2.id = p.1.documentId
          ∧ p.2.status = DOCUMENT_STATUS_COMPLETED
          ∧ p.1.knowledgeBaseId ∈ knowledgeBaseIds := by
  unfold searchKnowledgeBaseChunks
  by_cases hguard : knowledgeBaseIds = [] ∨ embedding = []
  · rw [if_pos hguard]
    exact ⟨[], rfl, by simp, by simp, by simp⟩
  · rw [if_neg hguard]
    simp only []
    refine ⟨_, rfl, ?_, ?_, ?_⟩
    · rw [List.length_take]
      exact min_le_left _ _
    · haveI htotal : IsTotal (ChunkRow × DocumentRow) (fun a b =>
          distFn a.1.embedding embedding ≤ distFn b.1.embedding embedding) :=
        ⟨fun a b => le_total _ _⟩
      haveI htrans : IsTrans (ChunkRow × DocumentRow) (fun a b =>
          distFn a.1.embedding embedding ≤ distFn b.1.embedding embedding) :=
        ⟨fun _ _ _ hab hbc => le_trans hab hbc⟩
      exact List.Pairwise.sublist (List.take_sublist _ _) (List.sorted_insertionSort _ _)
    · intro p hp
      have hp1 : p ∈ List.insertionSort (fun a b =>
          distFn a.1.embedding embedding ≤ distFn b.1.embedding embedding)
          (List.filter (fun cd =>
            decide (cd.1.knowledgeBaseId ∈ knowledgeBaseIds)
              && decide (cd.2.status = DOCUMENT_STATUS_COMPLETED))
            (db.chunks.flatMap (fun c =>
              (db.documents.filter (fun d => decide (d.id = c.documentId))).map
                (fun d => (c, d))))) := List.mem_of_mem_take hp
      have hp2 := (List.perm_insertionSort _ _).mem_iff.mp hp1
      rcases List.mem_filter.mp hp2 with ⟨hjoined, hpred⟩
      rcases Bool.and_eq_true .. ▸ hpred with hhh
      have hkb : p.1.knowledgeBaseId ∈ knowledgeBaseIds := by
        have := (Bool.and_eq_true _ _).mp hpred
        exact of_decide_eq_true this.1
      have hst : p.2.status = DOCUMENT_STATUS_COMPLETED := by
        have := (Bool.and_eq_true _ _).mp hpred
        exact of_decide_eq_true this.2
      rcases List.mem_flatMap.mp hjoined with ⟨c, hc, hpc⟩
      rcases List.mem_map.mp hpc with ⟨d, hd, hpd⟩
      rcases List.mem_filter.mp hd with ⟨hdmem, hdid⟩
      have hp1c : p.1 = c := by rw [← hpd]
      have hp2d : p.2 = d := by rw [← hpd]
      refine ⟨?_, ?_, ?_, hst, hkb⟩
      · rw [hp1c]; exact hc
      · rw [hp2d]; exact hdmem
      · rw [hp1c, hp2d]
        exact of_decide_eq_true hdid

/-- Claim C5: every search result comes from a chunk of a completed
document inside the caller-supplied knowledge bases, carries the
distance-derived similarity floored at zero, the results are ordered by
ascending distance hence descending score, at most limit rows are
returned, and the default limit is five. -/
theorem searchKnowledgeBaseChunks_spec (distFn : List Rat → List Rat → Rat) (db : Db)
    (knowledgeBaseIds : List String) (embedding : List Rat) (limit : Nat) :
    (searchKnowledgeBaseChunks distFn db knowledgeBaseIds embedding limit).length ≤ limit
    ∧ (∃ pairs : List (ChunkRow × DocumentRow),
        searchKnowledgeBaseChunks distFn db knowledgeBaseIds embedding limit
          = pairs.map (mkSearchResult distFn embedding)
        ∧ pairs.Pairwise (fun a b =>
            distFn a.1.embedding embedding ≤ distFn b.1.embedding embedding)
        ∧ ∀ p ∈ pairs, p.1 ∈ db.chunks ∧ p.2 ∈ db.documents ∧ p.2.id = p.1.documentId
            ∧ p.2.status = DOCUMENT_STATUS_COMPLETED
            ∧ p.1.knowledgeBaseId ∈ knowledgeBaseIds)
    ∧ (∀ r ∈ searchKnowledgeBaseChunks distFn db knowledgeBaseIds embedding limit,
        0 ≤ r.score)
    ∧ (searchKnowledgeBaseChunks distFn db knowledgeBaseIds embedding limit).Pairwise
        (fun a b => b.score ≤ a.score)
    ∧ searchKnowledgeBaseChunksDefault distFn db knowledgeBaseIds embedding
      = searchKnowledgeBaseChunks distFn db knowledgeBaseIds embedding 5 := by
  rcases search_exists_pairs distFn db knowledgeBaseIds embedding limit
    with ⟨pairs, heq, hlen, hsorted, hmem⟩
  refine ⟨?_, ⟨pairs, heq, hsorted, hmem⟩, ?_, ?_, rfl⟩
  · rw [heq, List.length_map]
    exact hlen
  · intro r hr
    rw [heq] at hr
    rcases List.mem_map.mp hr with ⟨p, _, rfl⟩
    exact le_max_left _ _
  · rw [heq]
    apply List.pairwise_map.mpr
    apply hsorted.imp
    intro a b hab
    show (mkSearchResult distFn embedding b).score ≤ (mkSearchResult distFn embedding a).score
    unfold mkSearchResult
    simp only []
    exact max_le_max (le_refl 0) (sub_le_sub_left hab 1)

/-- Witness: a database with one eligible chunk returns it with a
non-negative score under the zero distance function. -/
theorem searchKnowledgeBaseChunks_spec_witness :
    (searchKnowledgeBaseChunks (fun _ _ => 0)
        { documents := [{ id := "d1", knowledgeBaseId := "kb1", status := "completed"
            : DocumentRow }]
          chunks := [{ documentId := "d1", knowledgeBaseId := "kb1", content := "c1"
            : ChunkRow }] }
        [("kb1")] [1] 5).length ≤ 5
    ∧ ∀ r ∈ searchKnowledgeBaseChunks (fun _ _ => 0)
        { documents := [{ id := "d1", knowledgeBaseId := "kb1", status := "completed"
            : DocumentRow }]
          chunks := [{ documentId := "d1", knowledgeBaseId := "kb1", content := "c1"
            : ChunkRow }] }
        [("kb1")] [1] 5, 0 ≤ r.score :=
  ⟨(searchKnowledgeBaseChunks_spec (fun _ _ => 0)
      { documents := [{ id := "d1", knowledgeBaseId := "kb1", status := "completed"
          : DocumentRow }]
        chunks := [{ documentId := "d1", knowledgeBaseId := "kb1", content := "c1"
          : ChunkRow }] }
      [("kb1")] [1] 5).1,
    (searchKnowledgeBaseChunks_spec (fun _ _ => 0)
      { documents := [{ id := "d1", knowledgeBaseId := "kb1", status := "completed"
          : DocumentRow }]
        chunks := [{ documentId := "d1", knowledgeBaseId := "kb1", content := "c1"
          : ChunkRow }] }
      [("kb1")] [1] 5).2.2.1⟩

/-! ## Derived document-count claims -/

/-- mapDocumentCounts only reads the documents table. -/
theorem mapDocumentCounts_kbs (db : Db) (x : List KnowledgeBaseRow)
    (ids : List String) (knowledgeBaseId : String) :
    mapDocumentCounts { db with knowledgeBases := x } ids knowledgeBaseId
      = mapDocumentCounts db ids knowledgeBaseId := rfl

/-- The three derived counts of a mapped knowledge base are the document
counts the specification describes: total, pending-or-failed, and
processing. -/
theorem toKnowledgeBase_counts (db : Db) (ids : List String) (row : KnowledgeBaseRow)
    (hin : row.id ∈ ids) :
    (toKnowledgeBase row (mapDocumentCounts db ids row.id)).documentCount
      = db.documents.countP (fun d => decide (d.knowledgeBaseId = row.id))
    ∧ (toKnowledgeBase row (mapDocumentCounts db ids row.id)).pendingCount
      = db.documents.countP (fun d => decide (d.knowledgeBaseId = row.id
          ∧ (d.status = DOCUMENT_STATUS_PENDING ∨ d.status = DOCUMENT_STATUS_FAILED)))
    ∧ (toKnowledgeBase row (mapDocumentCounts db ids row.id)).processingCount
      = db.documents.countP (fun d => decide (d.knowledgeBaseId = row.id
          ∧ d.status = DOCUMENT_STATUS_PROCESSING)) := by
  unfold mapDocumentCounts
  by_cases hd : db.documents.filter (fun d => decide (d.knowledgeBaseId = row.id)) = []
  · rw [if_neg (by simp [hd])]
    have hnone : ∀ d ∈ db.documents, ¬ (decide (d.knowledgeBaseId = row.id) = true) := by
      intro d hdm hdec
      have : d ∈ db.documents.filter (fun x => decide (x.knowledgeBaseId = row.id)) :=
        List.mem_filter.mpr ⟨hdm, hdec⟩
      rw [hd] at this
      simp at this
    refine ⟨?_, ?_, ?_⟩
    · simp only [toKnowledgeBase, Option.map_none', Option.getD_none]
      symm
      apply List.countP_eq_zero.mpr
      intro d hdm h
      exact hnone d hdm (by simpa using of_decide_eq_true h)
    · simp only [toKnowledgeBase, Option.map_none', Option.getD_none]
      symm
      apply List.countP_eq_zero.mpr
      intro d hdm h
      exact hnone d hdm (by simpa using (of_decide_eq_true h).1)
    · simp only [toKnowledgeBase, Option.map_none', Option.getD_none]
      symm
      apply List.countP_eq_zero.mpr
      intro d hdm h
      exact hnone d hdm (by simpa using (of_decide_eq_true h).1)
  · rw [if_pos ⟨hin, hd⟩]
    simp only [toKnowledgeBase, Option.map_some', Option.getD_some]
    refine ⟨?_, ?_, ?_⟩
    · rw [List.countP_eq_length_filter]
    · rw [List.filter_filter, ← List.countP_eq_length_filter]
      apply List.countP_congr
      intro x _
      simp only [Bool.and_eq_true, decide_eq_true_eq]
      constructor
      · rintro ⟨h1, h2⟩
        exact ⟨h2, h1⟩
      · rintro ⟨h1, h2⟩
        exact ⟨h2, h1⟩
    · rw [List.filter_filter, ← List.countP_eq_length_filter]
      apply List.countP_congr
      intro x _
      simp only [Bool.and_eq_true, decide_eq_true_eq]
      constructor
      · rintro ⟨h1, h2⟩
        exact ⟨h2, h1⟩
      · rintro ⟨h1, h2⟩
        exact ⟨h2, h1⟩

/-- Claim C10: the derived counts returned by getKnowledgeBaseById,
listKnowledgeBasesForUser and updateKnowledgeBase are, for the listed
knowledge base: documentCount the number of its documents regardless of
status, pendingCount the number of its documents in status pending or
failed, and processingCount the number of its documents in status
processing. -/
theorem documentCounts_spec (db : Db) (now : Nat) (userId : String)
    (kb : KnowledgeBaseRow) (payload : UpdateKnowledgeBasePayload)
    (hkb : kb ∈ db.knowledgeBases)
    (hnodup : (db.knowledgeBases.map (fun k => k.id)).Nodup) :
    (∀ k, getKnowledgeBaseById db kb.id userId = some k →
        k.documentCount = db.documents.countP (fun d => decide (d.knowledgeBaseId = kb.id))
        ∧ k.pendingCount = db.documents.countP (fun d => decide (d.knowledgeBaseId = kb.id
            ∧ (d.status = DOCUMENT_STATUS_PENDING ∨ d.status = DOCUMENT_STATUS_FAILED)))
        ∧ k.processingCount = db.documents.countP (fun d =>
            decide (d.knowledgeBaseId = kb.id ∧ d.status = DOCUMENT_STATUS_PROCESSING)))
    ∧ (∀ s ∈ listKnowledgeBasesForUser db userId,
        s.documentCount = db.documents.countP (fun d => decide (d.knowledgeBaseId = s.id))
        ∧ s.pendingCount = db.documents.countP (fun d => decide (d.knowledgeBaseId = s.id
            ∧ (d.status = DOCUMENT_STATUS_PENDING ∨ d.status = DOCUMENT_STATUS_FAILED)))
        ∧ s.processingCount = db.documents.countP (fun d =>
            decide (d.knowledgeBaseId = s.id ∧ d.status = DOCUMENT_STATUS_PROCESSING)))
    ∧ (∀ k db', updateKnowledgeBase db now kb.id userId payload
          = Except.ok (some (k, db')) →
        k.documentCount = db.documents.countP (fun d => decide (d.knowledgeBaseId = kb.id))
        ∧ k.pendingCount = db.documents.countP (fun d => decide (d.knowledgeBaseId = kb.id
            ∧ (d.status = DOCUMENT_STATUS_PENDING ∨ d.status = DOCUMENT_STATUS_FAILED)))
        ∧ k.processingCount = db.documents.countP (fun d =>
            decide (d.knowledgeBaseId = kb.id ∧ d.status = DOCUMENT_STATUS_PROCESSING))) := by
  refine ⟨?_, ?_, ?_⟩
  · intro k hk
    rcases hl : loadKnowledgeBaseRow db kb.id userId with _ | a
    · rw [show getKnowledgeBaseById db kb.id userId
          = (loadKnowledgeBaseRow db kb.id userId).map (fun x => x.knowledgeBase) from rfl,
        hl] at hk
      simp at hk
    · rw [show getKnowledgeBaseById db kb.id userId
          = (loadKnowledgeBaseRow db kb.id userId).map (fun x => x.knowledgeBase) from rfl,
        hl] at hk
      simp only [Option.map_some', Option.some.injEq] at hk
      have hakb := (loadKnowledgeBaseRow_some db kb userId hkb hnodup a hl).1
      rw [← hk, hakb]
      exact toKnowledgeBase_counts db [kb.id] kb (by simp)
  · intro s hs
    unfold listKnowledgeBasesForUser listAccessibleKnowledgeBases at hs
    simp only [] at hs
    rcases List.mem_map.mp hs with ⟨row, hrow, rfl⟩
    have hin : row.id ∈ (List.insertionSort (fun a b => b.updatedAt ≤ a.updatedAt)
        (db.knowledgeBases.filter (accessibleFilter db userId))).map (fun r => r.id) :=
      List.mem_map.mpr ⟨row, hrow, rfl⟩
    have hc := toKnowledgeBase_counts db _ row hin
    exact ⟨hc.1, hc.2.1, hc.2.2⟩
  · intro k db' hk
    unfold updateKnowledgeBase at hk
    rcases loadKB_cases db kb userId hkb hnodup with ⟨hnone, _⟩ | ⟨a, hsome, hakb, _, _⟩
    · rw [hnone] at hk
      simp at hk
    · rw [hsome] at hk
      simp only [] at hk
      rcases hcwv : a.canWrite with _ | _
      · rw [hcwv] at hk
        simp at hk
      · rw [hcwv] at hk
        simp only [Bool.not_true, Bool.false_eq_true, if_false] at hk
        rcases hck : checkOrganizationChange db a.knowledgeBase userId payload with e | u
        · rw [hck] at hk
          simp at hk
        · rw [hck] at hk
          simp only [] at hk
          rcases hfu : List.find? (fun x => decide (x.id = kb.id))
              (db.knowledgeBases.map (fun x =>
                if decide (x.id = kb.id) then
                  updatedKnowledgeBaseRow now a.knowledgeBase payload x
                else x)) with _ | u2
          · rw [hfu] at hk
            simp at hk
          · rw [hfu] at hk
            simp only [Except.ok.injEq, Option.some.injEq, Prod.mk.injEq] at hk
            rcases hk with ⟨rfl, _⟩
            have hcore := toKnowledgeBase_counts db [kb.id] kb (by simp)
            rw [mapDocumentCounts_kbs] at *
            rcases hmc : mapDocumentCounts db [kb.id] kb.id with _ | c
            · rw [hmc] at hcore
              simp only [toKnowledgeBase, Option.map_none', Option.getD_none] at hcore
              simp only [hmc, Option.map_none', Option.getD_none]
              rw [hakb, hmc]
              simp only [toKnowledgeBase]
              exact hcore
            · rw [hmc] at hcore
              simp only [toKnowledgeBase, Option.map_some', Option.getD_some] at hcore
              simp only [hmc, Option.map_some', Option.getD_some]
              exact hcore

/-- Witness: a knowledge base with one pending, one failed, one
processing and one completed document reports four documents, two
pending (failed counted as pending) and one processing. -/
theorem documentCounts_spec_witness :
    (getKnowledgeBaseById
        { knowledgeBases := [{ id := "kb1", ownerUserId := "u1" : KnowledgeBaseRow }]
          documents := [{ id := "d1", knowledgeBaseId := "kb1", status := "pending" },
            { id := "d2", knowledgeBaseId := "kb1", status := "failed" },
            { id := "d3", knowledgeBaseId := "kb1", status := "processing" },
            { id := "d4", knowledgeBaseId := "kb1", status := "completed" : DocumentRow }] }
        ("kb1") ("u1")).map (fun k => (k.documentCount, k.pendingCount, k.processingCount))
      = some (4, 2, 1) := by
  rcases hk : getKnowledgeBaseById
      { knowledgeBases := [{ id := "kb1", ownerUserId := "u1" : KnowledgeBaseRow }]
        documents := [{ id := "d1", knowledgeBaseId := "kb1", status := "pending" },
          { id := "d2", knowledgeBaseId := "kb1", status := "failed" },
          { id := "d3", knowledgeBaseId := "kb1", status := "processing" },
          { id := "d4", knowledgeBaseId := "kb1", status := "completed" : DocumentRow }] }
      ("kb1") ("u1") with _ | k
  · exact absurd hk (by decide)
  · have hc := (documentCounts_spec
      { knowledgeBases := [{ id := "kb1", ownerUserId := "u1" : KnowledgeBaseRow }]
        documents := [{ id := "d1", knowledgeBaseId := "kb1", status := "pending" },
          { id := "d2", knowledgeBaseId := "kb1", status := "failed" },
          { id := "d3", knowledgeBaseId := "kb1", status := "processing" },
          { id := "d4", knowledgeBaseId := "kb1", status := "completed" : DocumentRow }] }
      0 ("u1") { id := "kb1", ownerUserId := "u1" : KnowledgeBaseRow } {}
      (by decide) (by decide)).1 k hk
    rw [Option.map_some']
    rcases hc with ⟨h1, h2, h3⟩
    rw [h1, h2, h3]
    decide

/-! ## Worker failure-handling claims -/

/-- The claim update changes neither ids nor chunk counts. -/
theorem markDocumentProcessing_chunkCounts (db : Db) (now : Nat) (documentId : String) :
    (markDocumentProcessing db now documentId).2.documents.map
        (fun d => (d.id, d.chunkCount))
      = db.documents.map (fun d => (d.id, d.chunkCount)) := by
  show (db.documents.map (fun d =>
      if isPendingDoc documentId d then claimDoc now d else d)).map
      (fun d => (d.id, d.chunkCount)) = _
  rw [List.map_map]
  apply List.map_congr_left
  intro d _
  by_cases h : isPendingDoc documentId d = true
  · simp [h, claimDoc]
  · simp [h]

/-- Marking a document failed changes neither ids nor chunk counts. -/
theorem markDocumentFailed_chunkCounts (db : Db) (now : Nat) (documentId e : String) :
    (markDocumentFailed db now documentId e).documents.map (fun d => (d.id, d.chunkCount))
      = db.documents.map (fun d => (d.id, d.chunkCount)) := by
  show (db.documents.map (fun d =>
      if decide (d.id = documentId) then
        { d with status := DOCUMENT_STATUS_FAILED, error := some e, updatedAt := now }
      else d)).map (fun d => (d.id, d.chunkCount)) = _
  rw [List.map_map]
  apply List.map_congr_left
  intro d _
  by_cases h : d.id = documentId
  · simp [h]
  · simp [h]

/-- After markDocumentFailed every row with the document's id is failed
and stores the message. -/
theorem markDocumentFailed_status (db : Db) (now : Nat) (documentId e : String) :
    ∀ d ∈ (markDocumentFailed db now documentId e).documents, d.id = documentId →
      d.status = DOCUMENT_STATUS_FAILED ∧ d.error = some e := by
  intro d hd hid
  rcases List.mem_map.mp hd with ⟨d0, _, rfl⟩
  by_cases h : decide (d0.id = documentId) = true
  · rw [if_pos h]
    exact ⟨rfl, rfl⟩
  · rw [if_neg h] at hid ⊢
    exact absurd (decide_eq_true hid) h

/-- Ordering helper: in the successful event triple every upsert event is
preceded by the matching remove event. -/
theorem remove_before_upsert_triple (i : String) (m : Nat) :
    ∀ (l₁ : List WorkerEvent) (dId : String) (n : Nat) (l₂ : List WorkerEvent),
    [WorkerEvent.removeChunks i, WorkerEvent.upsertChunks i m, WorkerEvent.completed i]
      = l₁ ++ WorkerEvent.upsertChunks dId n :: l₂ →
    WorkerEvent.removeChunks dId ∈ l₁ := by
  intro l₁ dId n l₂ heq
  rcases l₁ with _ | ⟨x, l₁⟩
  · simp at heq
  · rcases l₁ with _ | ⟨y, l₁⟩
    · simp only [List.cons_append, List.nil_append, List.cons.injEq] at heq
      rcases heq with ⟨hx, hy, _⟩
      rcases WorkerEvent.upsertChunks.injEq .. ▸ hy with hh
      have hdid : i = dId := by
        injection hy
      rw [← hx, ← hdid]
      simp
    · rcases l₁ with _ | ⟨z, l₁⟩
      · simp at heq
      · simp at heq

/-- Ordering helper: an event list without any upsert event trivially
satisfies the remove-before-upsert ordering. -/
theorem remove_before_upsert_of_no_upsert (evs : List WorkerEvent)
    (h : ∀ dId n, WorkerEvent.upsertChunks dId n ∉ evs) :
    ∀ (l₁ : List WorkerEvent) (dId : String) (n : Nat) (l₂ : List WorkerEvent),
    evs = l₁ ++ WorkerEvent.upsertChunks dId n :: l₂ →
    WorkerEvent.removeChunks dId ∈ l₁ := by
  intro l₁ dId n l₂ heq
  exfalso
  apply h dId n
  rw [heq]
  simp


/-- Claim C2, amended: whenever a step of the pipeline fails with an
exception, the document is marked failed with the exception's message
stored verbatim as the error (so the stored error is non-empty exactly
when the message is; the worker's own empty-buffer and empty-extraction
messages are non-empty), the chunk counts of all documents are unchanged
by the failure marking, no chunk row that was not already present is
persisted, and in every run the chunk delete event precedes any chunk
insert event. -/
theorem processDocument_failure_marks_failed (env : WorkerEnv) (maxChunks now : Nat)
    (db : Db) (documentId msg : String) :
    (WorkerEvent.failed documentId msg ∈ (processDocument env maxChunks now db documentId).2 →
      (∀ d ∈ (processDocument env maxChunks now db documentId).1.documents,
        d.id = documentId → d.status = DOCUMENT_STATUS_FAILED ∧ d.error = some msg)
      ∧ ((processDocument env maxChunks now db documentId).1.documents.map
          (fun d => (d.id, d.chunkCount))
          = db.documents.map (fun d => (d.id, d.chunkCount)))
      ∧ (∀ c ∈ (processDocument env maxChunks now db documentId).1.chunks, c ∈ db.chunks))
    ∧ (∀ (l₁ : List WorkerEvent) (dId : String) (n : Nat) (l₂ : List WorkerEvent),
        (processDocument env maxChunks now db documentId).2
          = l₁ ++ WorkerEvent.upsertChunks dId n :: l₂ →
        WorkerEvent.removeChunks dId ∈ l₁) := by
  unfold processDocument
  split
  · next db1 heq =>
    simp only []
    constructor
    · intro hmem
      simp at hmem
    · intro l₁ dId n l₂ hev
      exact absurd hev.symm (by simp)
  · next claimed db1 heq =>
    have hdocs1 : db1.documents.map (fun d => (d.id, d.chunkCount))
        = db.documents.map (fun d => (d.id, d.chunkCount)) := by
      have h := markDocumentProcessing_chunkCounts db now documentId
      rw [heq] at h
      exact h
    have hch1 : db1.chunks = db.chunks := by
      have h : (markDocumentProcessing db now documentId).2.chunks = db.chunks := rfl
      rw [heq] at h
      exact h
    have hdb1chunks : ∀ c ∈ db1.chunks, c ∈ db.chunks := by
      intro c hc
      rw [← hch1]
      exact hc
    have hdb2docs : (removeDocumentChunks db1 claimed.id).documents.map
        (fun d => (d.id, d.chunkCount))
        = db.documents.map (fun d => (d.id, d.chunkCount)) := hdocs1
    have hdb2chunks : ∀ c ∈ (removeDocumentChunks db1 claimed.id).chunks,
        c ∈ db.chunks := by
      intro c hc
      have hc' : c ∈ db1.chunks.filter (fun x => !(decide (x.documentId = claimed.id))) := hc
      rw [← hch1]
      exact (List.mem_filter.mp hc').1
    have hfailCase : ∀ (dbX : Db) (e : String),
        dbX.documents.map (fun d => (d.id, d.chunkCount))
          = db.documents.map (fun d => (d.id, d.chunkCount)) →
        (∀ c ∈ dbX.chunks, c ∈ db.chunks) →
        msg = e →
        ((∀ d ∈ (markDocumentFailed dbX now documentId e).documents,
            d.id = documentId → d.status = DOCUMENT_STATUS_FAILED ∧ d.error = some msg)
          ∧ ((markDocumentFailed dbX now documentId e).documents.map
              (fun d => (d.id, d.chunkCount))
              = db.documents.map (fun d => (d.id, d.chunkCount)))
          ∧ (∀ c ∈ (markDocumentFailed dbX now documentId e).chunks, c ∈ db.chunks)) := by
      intro dbX e hdocs hchunks hmsg
      subst hmsg
      refine ⟨markDocumentFailed_status dbX now documentId msg, ?_, ?_⟩
      · rw [markDocumentFailed_chunkCounts]
        exact hdocs
      · intro c hc
        exact hchunks c hc
    split
    · next e hblob =>
      simp only []
      constructor
      · intro hmem
        simp only [List.mem_singleton, WorkerEvent.failed.injEq] at hmem
        exact hfailCase db1 e hdocs1 hdb1chunks hmem.2
      · intro l₁ dId n l₂ hev
        exact remove_before_upsert_of_no_upsert _ (by intro dId' n'; simp) l₁ dId n l₂ hev
    · next buffer hblob =>
      split
      · next hbuf =>
        simp only []
        constructor
        · intro hmem
          simp only [List.mem_singleton, WorkerEvent.failed.injEq] at hmem
          exact hfailCase db1 ("Document is empty") hdocs1 hdb1chunks hmem.2
        · intro l₁ dId n l₂ hev
          exact remove_before_upsert_of_no_upsert _ (by intro dId' n'; simp) l₁ dId n l₂ hev
      · next hbuf =>
        split
        · next e hext =>
          simp only []
          constructor
          · intro hmem
            simp only [List.mem_singleton, WorkerEvent.failed.injEq] at hmem
            exact hfailCase db1 e hdocs1 hdb1chunks hmem.2
          · intro l₁ dId n l₂ hev
            exact remove_before_upsert_of_no_upsert _ (by intro dId' n'; simp)
              l₁ dId n l₂ hev
        · next text hext =>
          split
          · next htxt =>
            simp only []
            constructor
            · intro hmem
              simp only [List.mem_singleton, WorkerEvent.failed.injEq] at hmem
              exact hfailCase db1 ("Unable to extract text from document") hdocs1
                hdb1chunks hmem.2
            · intro l₁ dId n l₂ hev
              exact remove_before_upsert_of_no_upsert _ (by intro dId' n'; simp)
                l₁ dId n l₂ hev
          · next htxt =>
            simp only []
            split
            · next hchk =>
              simp only []
              constructor
              · intro hmem
                simp at hmem
              · intro l₁ dId n l₂ hev
                exact remove_before_upsert_of_no_upsert _ (by intro dId' n'; simp)
                  l₁ dId n l₂ hev
            · next hchk =>
              split
              · next e hemb =>
                simp only []
                constructor
                · intro hmem
                  simp only [List.mem_cons, List.mem_singleton,
                    WorkerEvent.failed.injEq] at hmem
                  rcases hmem with h | ⟨_, hmsg⟩ | h
                  · exact absurd h (by simp)
                  · exact hfailCase (removeDocumentChunks db1 claimed.id) e hdb2docs
                      hdb2chunks hmsg
                  · simp at h
                · intro l₁ dId n l₂ hev
                  exact remove_before_upsert_of_no_upsert _ (by intro dId' n'; simp)
                    l₁ dId n l₂ hev
              · next embeddings tokens hemb =>
                split
                · next e hup =>
                  simp only []
                  constructor
                  · intro hmem
                    simp only [List.mem_cons, List.mem_singleton,
                      WorkerEvent.failed.injEq] at hmem
                    rcases hmem with h | ⟨_, hmsg⟩ | h
                    · exact absurd h (by simp)
                    · exact hfailCase (removeDocumentChunks db1 claimed.id) e hdb2docs
                        hdb2chunks hmsg
                    · simp at h
                  · intro l₁ dId n l₂ hev
                    exact remove_before_upsert_of_no_upsert _ (by intro dId' n'; simp)
                      l₁ dId n l₂ hev
                · next hup =>
                  simp only []
                  constructor
                  · intro hmem
                    simp at hmem
                  · intro l₁ dId n l₂ hev
                    exact remove_before_upsert_triple claimed.id _ l₁ dId n l₂ hev

/-- Counterexample to claim C2 as stated: an embedding-provider exception
whose message is the empty string leads to the document being marked
failed with an empty stored error string. -/
theorem processDocument_empty_error_counterexample :
    ((processDocument
        { blob := fun _ => Except.ok [1]
          extract := fun _ _ _ => Except.ok ("hello world")
          embed := fun _ => Except.error ("") }
        40 7 { documents := [{ id := "d1", knowledgeBaseId := "kb1", status := "pending"
          : DocumentRow }] }
        ("d1")).1.documents.map (fun d => (d.status, d.error)))
      = [(("failed" : String), some ("" : String))]
    ∧ WorkerEvent.failed ("d1") ("") ∈ (processDocument
        { blob := fun _ => Except.ok [1]
          extract := fun _ _ _ => Except.ok ("hello world")
          embed := fun _ => Except.error ("") }
        40 7 { documents := [{ id := "d1", knowledgeBaseId := "kb1", status := "pending"
          : DocumentRow }] }
        ("d1")).2 := by
  decide

/-- Witness: a failing embedding call with message boom marks the claimed
document failed with that message. -/
theorem processDocument_failure_marks_failed_witness :
    WorkerEvent.failed ("d1") ("boom") ∈ (processDocument
        { blob := fun _ => Except.ok [1]
          extract := fun _ _ _ => Except.ok ("hello world")
          embed := fun _ => Except.error ("boom") }
        40 7 { documents := [{ id := "d1", knowledgeBaseId := "kb1", status := "pending"
          : DocumentRow }] }
        ("d1")).2
    ∧ ∀ d ∈ (processDocument
        { blob := fun _ => Except.ok [1]
          extract := fun _ _ _ => Except.ok ("hello world")
          embed := fun _ => Except.error ("boom") }
        40 7 { documents := [{ id := "d1", knowledgeBaseId := "kb1", status := "pending"
          : DocumentRow }] }
        ("d1")).1.documents,
        d.id = ("d1" : String) → d.status = DOCUMENT_STATUS_FAILED ∧ d.error = some ("boom") :=
  ⟨by decide,
    ((processDocument_failure_marks_failed
        { blob := fun _ => Except.ok [1]
          extract := fun _ _ _ => Except.ok ("hello world")
          embed := fun _ => Except.error ("boom") }
        40 7 { documents := [{ id := "d1", knowledgeBaseId := "kb1", status := "pending"
          : DocumentRow }] }
        ("d1") ("boom")).1 (by decide)).1⟩
